import Mathlib

/-!
# Verification of the memory-collector userspace pipeline

A shallow embedding, in Lean 4, of the core data structures and algorithms of
the `memory-collector` repository, together with theorems settling the frozen
claims about it.

Embedded components (each definition is translated from the named Rust source):

* `PerfRing` — the byte-level single-producer/single-consumer ring buffer of
  `crates/perf/src/ring.rs`.  Raw-pointer memory is modelled as a total
  function from byte offsets to byte values; `head`/`tail` are the u64
  positions of the Rust struct (they stay far below 2^64 in any execution, so
  `Nat` arithmetic agrees with the u64 arithmetic of the source).
* `RecordRing`/`Reader` — the multi-ring merge reader of
  `crates/perf_events/src/reader.rs`, over a record-level view of a ring
  (the list of framed records a well-formed byte ring contains).  The reader
  interacts with a ring only through `bytes_remaining`, `peek_type`,
  `peek_copy` and `pop`, which are mirrored on the record view.
* `heapPush`/`heapPop` — a faithful model of Rust's
  `std::collections::BinaryHeap` (`push`/`sift_up` and
  `pop`/`sift_down_to_bottom`), which the reader's merge order depends on.
* `Dispatcher` — `crates/perf_events/src/dispatcher.rs`.
* `MinTracker` — `crates/timeslot/src/min_tracker.rs`; the interior
  `BTreeMap<u64, usize>` is modelled as a key-sorted association list.
* `TaskCollection` — `crates/collector/src/task_metadata.rs`; the interior
  `HashMap` is modelled as an association list (lookup/insert/remove
  semantics agree; no claim depends on iteration order).
* `TimeslotData`/`Metric` — `crates/collector/src/timeslot_data.rs` and
  `crates/collector/src/metrics.rs`.
* `ParquetWriter` — the size/quota bookkeeping of
  `crates/collector/src/parquet_writer.rs`; the external arrow/parquet
  encoder (an out-of-scope library dependency) is abstracted to the number
  of compressed bytes each record batch contributes.
-/

/-! ## Association-list model of `HashMap` (lookup / insert-overwrite / remove) -/

/-- `HashMap::get`: first binding of the key, if any. -/
def amGet {β : Type} : List (Nat × β) → Nat → Option β
  | [], _ => none
  | (k, v) :: rest, key => if key = k then some v else amGet rest key

/-- `HashMap::insert`: overwrite the existing binding or append a new one. -/
def amInsert {β : Type} : List (Nat × β) → Nat → β → List (Nat × β)
  | [], key, v => [(key, v)]
  | (k, v') :: rest, key, v =>
    if key = k then (key, v) :: rest else (k, v') :: amInsert rest key v

/-- `HashMap::remove`: drop the binding of the key, if present. -/
def amRemove {β : Type} : List (Nat × β) → Nat → List (Nat × β)
  | [], _ => []
  | (k, v) :: rest, key => if key = k then rest else (k, v) :: amRemove rest key

/-! ## Sorted association-list model of `BTreeMap<u64, usize>`

`MinTracker` keeps a `BTreeMap` from time slot to the number of CPUs whose
latest timestamp falls in that slot.  A `BTreeMap` iterates keys in ascending
order, so `keys().next()` is the least key; a key-sorted association list has
exactly this behaviour. -/

/-- `BTreeMap::get`. -/
def btGet : List (Nat × Nat) → Nat → Option Nat
  | [], _ => none
  | (k, v) :: rest, key => if key = k then some v else btGet rest key

/-- `*map.entry(key).or_insert(0) += 1`, keeping keys sorted. -/
def btIncr : List (Nat × Nat) → Nat → List (Nat × Nat)
  | [], key => [(key, 1)]
  | (k, v) :: rest, key =>
    if key = k then (k, v + 1) :: rest
    else if key < k then (key, 1) :: (k, v) :: rest
    else (k, v) :: btIncr rest key

/-- `if let Some(c) = map.get_mut(&key) { *c -= 1; if *c == 0 { map.remove(&key); } }`. -/
def btDecr : List (Nat × Nat) → Nat → List (Nat × Nat)
  | [], _ => []
  | (k, v) :: rest, key =>
    if key = k then (if v - 1 = 0 then rest else (k, v - 1) :: rest)
    else (k, v) :: btDecr rest key

/-! ## `MinTracker` (crates/timeslot/src/min_tracker.rs) -/

/-- Errors of `timeslot::min_tracker::Error`. -/
inductive MinTrackerError where
  | cpuIdOutOfRange (cpu maxCpu : Nat)
  | nonMonotonicTimestamp (cpu prev new : Nat)
deriving DecidableEq, Repr

/-- State of `MinTracker`. -/
structure MinTracker where
  time_slot_size : Nat
  cpu_timestamps : List (Option Nat)
  time_slot_counts : List (Nat × Nat)
  uninitialized_cpus : Nat
deriving DecidableEq, Repr

/-- `MinTracker::new(time_slot_size, num_cpus)`. -/
def MinTracker.new (time_slot_size num_cpus : Nat) : MinTracker :=
  { time_slot_size := time_slot_size
    cpu_timestamps := List.replicate num_cpus none
    time_slot_counts := []
    uninitialized_cpus := num_cpus }

/-- `MinTracker::update(cpu_id, timestamp)`.  The method takes `&mut self`;
both error paths return before any field is written, so an error carries the
tracker state unchanged (the error payload below pairs the error with the
state, mirroring that).  Rust's `timestamp / time_slot_size` panics for
`time_slot_size = 0`; claims therefore assume a positive slot width. -/
def MinTracker.update (t : MinTracker) (cpu_id timestamp : Nat) :
    Except (MinTrackerError × MinTracker) MinTracker :=
  if cpu_id ≥ t.cpu_timestamps.length then
    .error (.cpuIdOutOfRange cpu_id (t.cpu_timestamps.length - 1), t)
  else
    let prev_timestamp := t.cpu_timestamps.getD cpu_id none
    let new_slot := timestamp / t.time_slot_size
    match prev_timestamp with
    | none =>
      .ok { t with
        uninitialized_cpus := t.uninitialized_cpus - 1
        time_slot_counts := btIncr t.time_slot_counts new_slot
        cpu_timestamps := t.cpu_timestamps.set cpu_id (some timestamp) }
    | some prev =>
      if prev > timestamp then
        .error (.nonMonotonicTimestamp cpu_id prev timestamp, t)
      else
        let current_slot := prev / t.time_slot_size
        let counts :=
          if current_slot ≠ new_slot then
            btIncr (btDecr t.time_slot_counts current_slot) new_slot
          else t.time_slot_counts
        .ok { t with
          time_slot_counts := counts
          cpu_timestamps := t.cpu_timestamps.set cpu_id (some timestamp) }

/-- `MinTracker::get_min()`. -/
def MinTracker.get_min (t : MinTracker) : Option Nat :=
  if t.uninitialized_cpus > 0 then none
  else t.time_slot_counts.head?.map (fun kv => kv.1 * t.time_slot_size)

/-- Folding a list of `(cpu_id, timestamp)` updates from a starting state,
stopping at the first error (used to quantify over update sequences). -/
def MinTracker.runUpdates (t : MinTracker) :
    List (Nat × Nat) → Except (MinTrackerError × MinTracker) MinTracker
  | [] => .ok t
  | (cpu, ts) :: rest => do
    let t' ← t.update cpu ts
    t'.runUpdates rest

/-! ## `TaskCollection` (crates/collector/src/task_metadata.rs) -/

/-- `TaskMetadata`: pid plus the 16-byte command name. -/
structure TaskMetadata where
  pid : Nat
  comm : List Nat
deriving DecidableEq, Repr

/-- `TaskCollection`: live task map plus the queue of deferred removals. -/
structure TaskCollection where
  tasks : List (Nat × TaskMetadata)
  removal_queue : List Nat
deriving DecidableEq, Repr

/-- `TaskCollection::new()`. -/
def TaskCollection.new : TaskCollection := { tasks := [], removal_queue := [] }

/-- `TaskCollection::add(metadata)`. -/
def TaskCollection.add (c : TaskCollection) (metadata : TaskMetadata) : TaskCollection :=
  { c with tasks := amInsert c.tasks metadata.pid metadata }

/-- `TaskCollection::lookup(pid)`. -/
def TaskCollection.lookup (c : TaskCollection) (pid : Nat) : Option TaskMetadata :=
  amGet c.tasks pid

/-- `TaskCollection::queue_removal(pid)`: queue only pids that are present. -/
def TaskCollection.queue_removal (c : TaskCollection) (pid : Nat) : TaskCollection :=
  if (amGet c.tasks pid).isSome then
    { c with removal_queue := c.removal_queue ++ [pid] }
  else c

/-- `TaskCollection::flush_removals()`: drain the queue, removing each pid. -/
def TaskCollection.flush_removals (c : TaskCollection) : TaskCollection :=
  { tasks := c.removal_queue.foldl (fun m pid => amRemove m pid) c.tasks
    removal_queue := [] }

/-- Operations on a `TaskCollection`, used to quantify over interleavings
(`add` = `on_metadata`, `queueRemoval` = `on_free`, `flushRemovals` =
`on_timeslot_advanced`, as wired in crates/collector/src/bpf_task_tracker.rs). -/
inductive TaskOp where
  | add (metadata : TaskMetadata)
  | queueRemoval (pid : Nat)
  | flushRemovals
deriving DecidableEq, Repr

/-- Apply one operation. -/
def TaskCollection.step (c : TaskCollection) : TaskOp → TaskCollection
  | .add m => c.add m
  | .queueRemoval pid => c.queue_removal pid
  | .flushRemovals => c.flush_removals

/-- Apply a list of operations in order. -/
def TaskCollection.run (c : TaskCollection) (ops : List TaskOp) : TaskCollection :=
  ops.foldl TaskCollection.step c

/-! ## `Metric` and `TimeslotData` (crates/collector/src/{metrics,timeslot_data}.rs) -/

/-- Performance counter deltas (u64 fields). -/
structure Metric where
  cycles : Nat
  instructions : Nat
  llc_misses : Nat
  cache_references : Nat
  time_ns : Nat
deriving DecidableEq, Repr

/-- `Metric::add`: fieldwise u64 `+=` (release-mode u64 addition wraps at 2^64). -/
def Metric.add (a other : Metric) : Metric :=
  { cycles := (a.cycles + other.cycles) % 2 ^ 64
    instructions := (a.instructions + other.instructions) % 2 ^ 64
    llc_misses := (a.llc_misses + other.llc_misses) % 2 ^ 64
    cache_references := (a.cache_references + other.cache_references) % 2 ^ 64
    time_ns := (a.time_ns + other.time_ns) % 2 ^ 64 }

/-- `TaskData`: optional metadata snapshot plus accumulated metrics. -/
structure TaskData where
  metadata : Option TaskMetadata
  metrics : Metric
deriving DecidableEq, Repr

/-- `TimeslotData`: start timestamp plus the pid → TaskData map. -/
structure TimeslotData where
  start_timestamp : Nat
  tasks : List (Nat × TaskData)
deriving DecidableEq, Repr

/-- `TimeslotData::new(start_timestamp)`. -/
def TimeslotData.new (start_timestamp : Nat) : TimeslotData :=
  { start_timestamp := start_timestamp, tasks := [] }

/-- `TimeslotData::update(pid, metadata, metrics)`: add into an existing entry's
metrics (leaving its stored metadata untouched), or insert a fresh entry. -/
def TimeslotData.update (t : TimeslotData) (pid : Nat) (metadata : Option TaskMetadata)
    (metrics : Metric) : TimeslotData :=
  match amGet t.tasks pid with
  | some task_data =>
    { t with tasks := amInsert t.tasks pid { task_data with metrics := task_data.metrics.add metrics } }
  | none =>
    { t with tasks := amInsert t.tasks pid { metadata := metadata, metrics := metrics } }

/-! ## Byte-level `PerfRing` (crates/perf/src/ring.rs)

The raw `*mut u8` data buffer is modelled as a total function from byte
offsets to byte values; `head` (consumer position) and `tail` (producer
position) are the u64 counters of the Rust struct.  They only grow by record
sizes, so they never approach 2^64 and `Nat` arithmetic agrees with u64.
`x & buf_mask` is written `x % (buf_mask + 1)` (equal for the power-of-two
buffer length), and `(x + 7) & !7` is written `align8 x` below. -/

/-- `PERF_RECORD_SAMPLE` (crates/perf/src/ring.rs). -/
def PERF_RECORD_SAMPLE : Nat := 9

/-- Modelled from the spec: `PERF_RECORD_LOST` is defined in the
`perf_events` crate's ring module, which is missing from the source snapshot
(only its users are present).  It is the Linux perf ABI tag for lost-record
notifications (value 2); claims rely only on it differing from
`PERF_RECORD_SAMPLE`. -/
def PERF_RECORD_LOST : Nat := 2

/-- `size_of::<PerfEventHeader>()`: `{type_: u32, misc: u16, size: u16}` = 8 bytes. -/
def headerSize : Nat := 8

/-- Write one byte at an address. -/
def storeByte (m : Nat → Nat) (a v : Nat) : Nat → Nat :=
  fun x => if x = a then v else m x

/-- Contiguous store of a byte list starting at an address
(`ptr::copy_nonoverlapping` into the buffer). -/
def storeBytes : (Nat → Nat) → Nat → List Nat → (Nat → Nat)
  | m, _, [] => m
  | m, a, v :: vs => storeBytes (storeByte m a v) (a + 1) vs

/-- Contiguous read of `n` bytes starting at an address. -/
def readBytes (m : Nat → Nat) (a n : Nat) : List Nat :=
  (List.range n).map (fun i => m (a + i))

/-- Little-endian byte list of a machine integer with the given byte width;
narrowing stores (e.g. the u32 `aligned_len` stored into the u16 `size`
field) truncate, exactly as the source's `as u16` cast does. -/
def leBytes : Nat → Nat → List Nat
  | 0, _ => []
  | n + 1, v => v % 256 :: leBytes n (v / 256)

/-- Little-endian value of a byte list (`from_le_bytes`); applied only to
bytes the model itself stored, which are < 256. -/
def leVal : List Nat → Nat
  | [] => 0
  | b :: bs => b + 256 * leVal bs

/-- `(x + 7) & !7`: round up to a multiple of 8. -/
def align8 (x : Nat) : Nat := (x + 7) / 8 * 8

/-- `PerfRingError` (crates/perf/src/ring.rs). -/
inductive PerfRingError where
  | invalidBufferLength
  | nilBuffer
  | noSpace
  | bufferEmpty
  | cannotFit
  | emptyWrite
  | sizeExceeded
deriving DecidableEq, Repr

/-- `PerfRing`: byte memory, data length, mask, consumer `head`, producer `tail`. -/
structure PerfRing where
  mem : Nat → Nat
  data_len : Nat
  buf_mask : Nat
  head : Nat
  tail : Nat

/-- `PerfRing::write(data, event_type)`; returns the payload offset and the
updated ring.  The header is an 8-byte contiguous store (the source writes
the struct with `ptr::write`, relying on 8-aligned positions so it cannot
wrap).  The source computes the record length in `u32`
(`data.len() as u32 + 8 (+4)`, then 8-alignment); this model uses plain `Nat`,
which coincides with the `u32` arithmetic exactly when
`data.length + 19 < 2^32` — the claim theorems below stay inside that
region (C1 through its 65535 size-field bound, C5 through an explicit
length hypothesis). -/
def PerfRing.write (r : PerfRing) (data : List Nat) (event_type : Nat) :
    Except PerfRingError (Nat × PerfRing) :=
  if data.length = 0 then .error .emptyWrite
  else
    let unaligned_len :=
      data.length + headerSize + (if event_type = PERF_RECORD_SAMPLE then 4 else 0)
    let aligned_len := align8 unaligned_len
    if aligned_len > r.buf_mask then .error .cannotFit
    else if r.tail + aligned_len - r.head > r.buf_mask + 1 then .error .noSpace
    else
      let header_pos := r.tail % (r.buf_mask + 1)
      let m1 := storeBytes r.mem header_pos
        (leBytes 4 event_type ++ leBytes 2 0 ++ leBytes 2 aligned_len)
      let data_pos0 := (r.tail + headerSize) % (r.buf_mask + 1)
      let m2 :=
        if event_type = PERF_RECORD_SAMPLE then
          storeBytes m1 data_pos0 (leBytes 4 (align8 (data.length + 4)))
        else m1
      let data_pos :=
        if event_type = PERF_RECORD_SAMPLE then (data_pos0 + 4) % (r.buf_mask + 1)
        else data_pos0
      let m3 :=
        if data_pos + data.length ≤ r.data_len then
          storeBytes m2 data_pos data
        else
          storeBytes (storeBytes m2 data_pos (data.take (r.data_len - data_pos))) 0
            (data.drop (r.data_len - data_pos))
      .ok (data_pos, { r with mem := m3, tail := r.tail + aligned_len })

/-- `PerfRing::peek_size()`: the header's `size` field minus the header size. -/
def PerfRing.peek_size (r : PerfRing) : Except PerfRingError Nat :=
  if r.tail = r.head then .error .bufferEmpty
  else .ok (leVal (readBytes r.mem (r.head % (r.buf_mask + 1) + 6) 2) - headerSize)

/-- `PerfRing::peek_type()`. -/
def PerfRing.peek_type (r : PerfRing) : Nat :=
  leVal (readBytes r.mem (r.head % (r.buf_mask + 1)) 4)

/-- `PerfRing::peek_copy(buf, offset)` for a destination buffer of length
`buf_len`: returns the bytes the destination holds afterwards. -/
def PerfRing.peek_copy (r : PerfRing) (buf_len : Nat) (offset : Nat) :
    Except PerfRingError (List Nat) :=
  match r.peek_size with
  | .error e => .error e
  | .ok size =>
    if buf_len > size then .error .sizeExceeded
    else
      let start_pos := (r.head + headerSize + offset) % (r.buf_mask + 1)
      let end_pos := (start_pos + buf_len - 1) % (r.buf_mask + 1)
      if end_pos < start_pos then
        let first_len := r.data_len - start_pos
        .ok (readBytes r.mem start_pos first_len ++ readBytes r.mem 0 (buf_len - first_len))
      else
        .ok (readBytes r.mem start_pos buf_len)

/-- `PerfRing::pop()`: advance `head` by the header's `size` field. -/
def PerfRing.pop (r : PerfRing) : Except PerfRingError PerfRing :=
  if r.tail = r.head then .error .bufferEmpty
  else .ok { r with
    head := r.head + leVal (readBytes r.mem (r.head % (r.buf_mask + 1) + 6) 2) }

/-- `PerfRing::bytes_remaining()`. -/
def PerfRing.bytes_remaining (r : PerfRing) : Nat :=
  let b := r.head % (r.buf_mask + 1)
  let e := r.tail % (r.buf_mask + 1)
  if e < b then r.buf_mask + 1 - b + e else e - b

/-! ## Record-level ring view and the merge `Reader` (crates/perf_events/src/reader.rs)

The `Reader` touches a ring only through `bytes_remaining`, `peek_type`,
`peek_copy` and `pop`.  A well-formed byte ring is a framed sequence of
records, so for the reader we model a ring as the list of its records; each
record carries the perf header's `type_` and the `header.size - 8` content
bytes that `peek_copy` exposes (for `PERF_RECORD_SAMPLE` records the content
begins with the kernel-injected u32 size, then the u32 message type, then the
u64 little-endian timestamp). -/

/-- One framed record as seen through `peek_type`/`peek_copy`. -/
structure RingRecord where
  type_ : Nat
  content : List Nat
deriving DecidableEq, Repr

/-- Record-level view of a `PerfRing` inside an active read batch. -/
structure RecordRing where
  records : List RingRecord
deriving DecidableEq, Repr

/-- `PerfRing::pop` on the record view. -/
def RecordRing.pop (r : RecordRing) : Except PerfRingError RecordRing :=
  match r.records with
  | [] => .error .bufferEmpty
  | _ :: rest => .ok ⟨rest⟩

/-- `PerfEntry` (crates/perf_events/src/reader.rs): timestamp plus ring index. -/
structure PerfEntry where
  timestamp : Nat
  ring_index : Nat
deriving DecidableEq, Repr

/-- `impl Ord for PerfEntry`: `cmp(self, other) = other.timestamp.cmp(&self.timestamp)`.
The comparison is reversed (so Rust's max-heap acts as a min-heap on the
timestamp) and it ignores `ring_index`; `a ≤ b` holds iff
`b.timestamp ≤ a.timestamp`. -/
def entryLe (a b : PerfEntry) : Bool := b.timestamp ≤ a.timestamp

/-! ### Rust `std::collections::BinaryHeap` on `PerfEntry`

A faithful model of the std implementation: `push` appends and sifts up;
`pop` swaps the last element into the root and calls `sift_down_to_bottom`,
which moves the hole to the bottom of the tree along the greater-child path
and then sifts up.  The hole optimisation of the std code is rendered as
plain swaps (same resulting array).  Loops become fuel recursion; the
wrappers pass fuel that provably exceeds the iteration count (`sift_up`
strictly decreases the position, `sift_down` strictly increases it below
`end`). -/

/-- The heap's backing vector, with `Vec` index access (out-of-range access
never happens on the call paths below). -/
def hget (d : List PerfEntry) (i : Nat) : PerfEntry := d.getD i ⟨0, 0⟩

/-- Swap two positions of the backing vector. -/
def hswap (d : List PerfEntry) (i j : Nat) : List PerfEntry :=
  (d.set i (hget d j)).set j (hget d i)

/-- `BinaryHeap::sift_up(start, pos)` (fuel recursion; `pos` decreases). -/
def siftUpF : Nat → List PerfEntry → Nat → Nat → List PerfEntry
  | 0, d, _, _ => d
  | fuel + 1, d, start, pos =>
    if start < pos then
      let parent := (pos - 1) / 2
      if entryLe (hget d pos) (hget d parent) then d
      else siftUpF fuel (hswap d pos parent) start parent
    else d

/-- `sift_up` with sufficient fuel. -/
def heapSiftUp (d : List PerfEntry) (start pos : Nat) : List PerfEntry :=
  siftUpF (pos + 1) d start pos

/-- The descent loop of `BinaryHeap::sift_down_to_bottom(pos)`: walk the hole
to the bottom along the greater child (ties pick the right child, as
`child += (get(child) <= get(child + 1)) as usize` does), returning the
array and the final hole position. -/
def siftDownF : Nat → List PerfEntry → Nat → Nat → List PerfEntry × Nat
  | 0, d, _, pos => (d, pos)
  | fuel + 1, d, endd, pos =>
    let child := 2 * pos + 1
    if child ≤ endd - 2 then
      let child := if entryLe (hget d child) (hget d (child + 1)) then child + 1 else child
      siftDownF fuel (hswap d pos child) endd child
    else if child = endd - 1 then (hswap d pos child, child)
    else (d, pos)

/-- `BinaryHeap::sift_down_to_bottom(pos)`: descend to the bottom, then
`sift_up(pos, bottom)`. -/
def heapSiftDownToBottom (d : List PerfEntry) (pos : Nat) : List PerfEntry :=
  let endd := d.length
  let dp := siftDownF (endd + 1) d endd pos
  siftUpF (dp.2 + 1) dp.1 pos dp.2

/-- `BinaryHeap::push(item)`. -/
def heapPush (d : List PerfEntry) (item : PerfEntry) : List PerfEntry :=
  heapSiftUp (d ++ [item]) 0 d.length

/-- `BinaryHeap::pop()`: remove the last element; if the heap is still
non-empty, swap it with the root and restore the heap shape. -/
def heapPop (d : List PerfEntry) : Option (PerfEntry × List PerfEntry) :=
  match d.getLast? with
  | none => none
  | some item =>
    let d' := d.dropLast
    if d'.isEmpty then some (item, d')
    else some (hget d' 0, heapSiftDownToBottom (d'.set 0 item) 0)

/-- `BinaryHeap::peek()`: the root. -/
def heapPeek (d : List PerfEntry) : Option PerfEntry := d.head?

/-- `ReaderError` (crates/perf_events/src/reader.rs). -/
inductive ReaderError where
  | noRings
  | notActive
  | alreadyActive
  | bufferEmpty
  | ringError (e : PerfRingError)
deriving DecidableEq, Repr

/-- `Reader`: rings, heap backing vector, membership flags, state machine flag. -/
structure Reader where
  rings : List RecordRing
  heap : List PerfEntry
  in_heap : List Bool
  active : Bool
deriving DecidableEq, Repr

/-- `Reader::new()`. -/
def Reader.new : Reader := { rings := [], heap := [], in_heap := [], active := false }

/-- `Reader::add_ring(ring)`. -/
def Reader.add_ring (r : Reader) (ring : RecordRing) : Except ReaderError Reader :=
  if r.active then .error .alreadyActive
  else .ok { r with rings := r.rings ++ [ring], in_heap := r.in_heap ++ [false] }

/-- The heap key `maintain_heap_entry` computes for a head record: 0 unless
the record is a `PERF_RECORD_SAMPLE` whose 8-byte `peek_copy` at the
timestamp offset (8) succeeds, in which case the little-endian u64 at content
offset 8.  (`peek_copy` only checks `buf.len() > size`, so for a sample with
8 ≤ content < 16 bytes the source reads past the record's own bytes; the
claims below restrict samples to ≥ 16 content bytes, where this model is
exact.) -/
def recordKey (rec : RingRecord) : Nat :=
  if rec.type_ = PERF_RECORD_SAMPLE ∧ 8 ≤ rec.content.length then
    leVal ((rec.content.drop 8).take 8)
  else 0

/-- `Reader::maintain_heap_entry(idx)`: skip an empty ring, otherwise push the
entry for the ring's head record.  (The ring must not be in the heap.) -/
def Reader.maintain_heap_entry (r : Reader) (idx : Nat) : Reader :=
  match (r.rings.getD idx ⟨[]⟩).records with
  | [] => r
  | rec :: _ =>
    { r with
      heap := heapPush r.heap ⟨recordKey rec, idx⟩
      in_heap := r.in_heap.set idx true }

/-- `Reader::start()`: begin a read batch on every ring (a no-op on the
record view, which models the snapshotted batch) and build the heap in ring
order. -/
def Reader.start (r : Reader) : Except ReaderError Reader :=
  if r.rings.length = 0 then .error .noRings
  else if r.active then .error .alreadyActive
  else
    let r' := (List.range r.rings.length).foldl
      (fun acc i => if acc.in_heap.getD i false then acc else acc.maintain_heap_entry i) r
    .ok { r' with active := true }

/-- `Reader::is_empty()`. -/
def Reader.is_empty (r : Reader) : Bool :=
  if ¬ r.active then true else r.heap.isEmpty

/-- `Reader::peek_timestamp()`. -/
def Reader.peek_timestamp (r : Reader) : Except ReaderError Nat :=
  if ¬ r.active then .error .notActive
  else
    match heapPeek r.heap with
    | some e => .ok e.timestamp
    | none => .error .bufferEmpty

/-- `Reader::current_ring()`: the ring holding the next record, and its index. -/
def Reader.current_ring (r : Reader) : Except ReaderError (RecordRing × Nat) :=
  if ¬ r.active then .error .notActive
  else
    match heapPeek r.heap with
    | some e => .ok (r.rings.getD e.ring_index ⟨[]⟩, e.ring_index)
    | none => .error .bufferEmpty

/-- `Reader::pop()`: pop the heap, pop the corresponding ring, re-insert that
ring's next entry. -/
def Reader.pop (r : Reader) : Except ReaderError Reader :=
  if ¬ r.active then .error .notActive
  else
    match heapPop r.heap with
    | none => .error .bufferEmpty
    | some (entry, heap') =>
      let r1 : Reader :=
        { r with heap := heap', in_heap := r.in_heap.set entry.ring_index false }
      match (r1.rings.getD entry.ring_index ⟨[]⟩).pop with
      | .error e => .error (.ringError e)
      | .ok ring' =>
        let r2 : Reader := { r1 with rings := r1.rings.set entry.ring_index ring' }
        .ok (r2.maintain_heap_entry entry.ring_index)

/-- The record `Reader::pop` would consume next: the head record of the ring
at the heap top. -/
def Reader.consumedNow (r : Reader) : Option (Nat × RingRecord) :=
  match heapPeek r.heap with
  | none => none
  | some e =>
    ((r.rings.getD e.ring_index ⟨[]⟩).records.head?).map (fun rec => (e.ring_index, rec))

/-- The sequence of `(ring_index, record)` pairs consumed by repeated
`Reader::pop` (up to `fuel` pops; stops early at the first error or when the
reader is exhausted). -/
def Reader.popSeq : Nat → Reader → List (Nat × RingRecord)
  | 0, _ => []
  | fuel + 1, r =>
    match r.consumedNow, r.pop with
    | some c, .ok r' => c :: Reader.popSeq fuel r'
    | _, _ => []

/-! ## `Dispatcher` (crates/perf_events/src/dispatcher.rs)

Subscriber callbacks receive borrowed views and only matter to the claims
through the statistics counters, so the registry is modelled by the set of
message types that have at least one sample subscriber. -/

/-- `Stats` (crates/perf_events/src/dispatcher.rs). -/
structure DispatchStats where
  samples_processed : Nat
  lost_events_processed : Nat
  callback_errors : Nat
  dropped_messages : Nat
deriving DecidableEq, Repr

/-- `DispatchError` (crates/perf_events/src/dispatcher.rs). -/
inductive DispatchError where
  | readerError (e : ReaderError)
  | ringError (e : PerfRingError)
  | invalidFormat
deriving DecidableEq, Repr

/-- `Dispatcher`: subscribed message types plus statistics. -/
structure Dispatcher where
  subscribed_types : List Nat
  stats : DispatchStats
deriving DecidableEq, Repr

/-- `Dispatcher::new()` (no subscribers registered yet). -/
def Dispatcher.new : Dispatcher :=
  { subscribed_types := [], stats := ⟨0, 0, 0, 0⟩ }

/-- `Dispatcher::dispatch(reader)`: examine the record at the reader's head,
invoke/count, then pop.  A `PERF_RECORD_SAMPLE` whose copied bytes are too
short for `SampleHeader` (16 bytes) makes `plain::from_bytes` fail, and the
`?` on that error returns `InvalidFormat` *before* the `reader.pop()` call
at the end of the function; nothing has been mutated at that point, so the
reader and the statistics are returned unchanged alongside the error. -/
def Dispatcher.dispatch (d : Dispatcher) (reader : Reader) :
    Except (DispatchError × Dispatcher × Reader) (Dispatcher × Reader) :=
  if reader.is_empty then .ok (d, reader)
  else
    match reader.current_ring with
    | .error e => .error (.readerError e, d, reader)
    | .ok (ring, _ring_index) =>
      match ring.records.head? with
      | none => .error (.ringError .bufferEmpty, d, reader)
      | some rec =>
        let event_data := rec.content
        if rec.type_ = PERF_RECORD_SAMPLE then
          if event_data.length < 16 then .error (.invalidFormat, d, reader)
          else
            let msg_type := leVal ((event_data.drop 4).take 4)
            let d' :=
              if msg_type ∈ d.subscribed_types then
                { d with stats := { d.stats with
                  samples_processed := d.stats.samples_processed + 1 } }
              else
                { d with stats := { d.stats with
                  dropped_messages := d.stats.dropped_messages + 1 } }
            match reader.pop with
            | .error e => .error (.readerError e, d', reader)
            | .ok reader' => .ok (d', reader')
        else if rec.type_ = PERF_RECORD_LOST then
          let d' := { d with stats := { d.stats with
            lost_events_processed := d.stats.lost_events_processed + 1 } }
          match reader.pop with
          | .error e => .error (.readerError e, d', reader)
          | .ok reader' => .ok (d', reader')
        else
          let d' := { d with stats := { d.stats with
            dropped_messages := d.stats.dropped_messages + 1 } }
          match reader.pop with
          | .error e => .error (.readerError e, d', reader)
          | .ok reader' => .ok (d', reader')

/-! ## `ParquetWriter` size/quota bookkeeping (crates/collector/src/parquet_writer.rs)

The arrow/parquet encoder (`AsyncArrowWriter`) is a library dependency and
out of scope; the repository code reads exactly two quantities from it — the
compressed sizes of the row groups flushed so far (`flushed_row_groups()`)
and the pending byte count (`in_progress_size()`) — and receives the final
per-row-group compressed sizes from `close()`.  The model keeps those
quantities, abstracting each record batch to the number of compressed bytes
it contributes, and each `flush` to moving the pending bytes into a new
row group that is streamed to the object store.  `store_bytes` is a ghost
counter of the compressed bytes that have physically reached the object
store (row groups stream out when flushed and on close); it is never read by
the modelled code. -/

/-- Abstract `AsyncArrowWriter` state. -/
structure ArrowWriter where
  flushed_groups : List Nat
  in_progress : Nat
deriving DecidableEq, Repr

/-- `AsyncArrowWriter::write(batch)`: buffer the batch's bytes. -/
def ArrowWriter.write (aw : ArrowWriter) (batch_bytes : Nat) : ArrowWriter :=
  { aw with in_progress := aw.in_progress + batch_bytes }

/-- `AsyncArrowWriter::flush()`: turn the pending bytes into a flushed row
group (a no-op when nothing is pending). -/
def ArrowWriter.flush (aw : ArrowWriter) : ArrowWriter :=
  if aw.in_progress = 0 then aw
  else { flushed_groups := aw.flushed_groups ++ [aw.in_progress], in_progress := 0 }

/-- `ParquetWriterConfig` (the fields the quota/rotation logic reads). -/
structure PWConfig where
  buffer_size : Nat
  file_size_limit : Nat
  storage_quota : Option Nat
deriving DecidableEq, Repr

/-- `ParquetWriter` state (size-tracking fields of the Rust struct, plus the
ghost `store_bytes`). -/
structure ParquetWriter where
  current_writer : Option ArrowWriter
  closed_files_size : Nat
  flushed_row_groups_size : Nat
  flushed_row_groups_count : Nat
  in_memory_size : Nat
  config : PWConfig
  store_bytes : Nat
deriving DecidableEq, Repr

/-- `ParquetWriter::is_below_quota()`. -/
def ParquetWriter.is_below_quota (w : ParquetWriter) : Bool :=
  match w.config.storage_quota with
  | some quota =>
    if w.closed_files_size + w.flushed_row_groups_size + w.in_memory_size ≥ quota then
      false
    else true
  | none => true

/-- `ParquetWriter::update_current_writer_size()`. -/
def ParquetWriter.update_current_writer_size (w : ParquetWriter) : ParquetWriter :=
  match w.current_writer with
  | some aw =>
    let w' :=
      if aw.flushed_groups.length ≠ w.flushed_row_groups_count then
        { w with
          flushed_row_groups_size := aw.flushed_groups.sum
          flushed_row_groups_count := aw.flushed_groups.length }
      else w
    { w' with in_memory_size := aw.in_progress }
  | none =>
    { w with
      flushed_row_groups_size := 0
      flushed_row_groups_count := 0
      in_memory_size := 0 }

/-- `ParquetWriter::flush()`: flush the pending bytes (streaming them to the
store) and refresh the size tracking. -/
def ParquetWriter.flush (w : ParquetWriter) : ParquetWriter :=
  match w.current_writer with
  | some aw =>
    ParquetWriter.update_current_writer_size
      { w with
        current_writer := some aw.flush
        store_bytes := w.store_bytes + aw.in_progress }
  | none => w

/-- `ParquetWriter::close_writer()`: `writer.close()` flushes the remaining
pending bytes into a final row group and returns the file metadata, whose
per-row-group compressed sizes are added to `closed_files_size`. -/
def ParquetWriter.close_writer (w : ParquetWriter) : ParquetWriter :=
  match w.current_writer with
  | some aw =>
    ParquetWriter.update_current_writer_size
      { w with
        current_writer := none
        store_bytes := w.store_bytes + aw.in_progress
        closed_files_size := w.closed_files_size + aw.flush.flushed_groups.sum }
  | none => ParquetWriter.update_current_writer_size w

/-- `ParquetWriter::create_new_file()`: refuse if a writer is open; silently
skip when the quota has been reached. -/
def ParquetWriter.create_new_file (w : ParquetWriter) : Except String ParquetWriter :=
  if w.current_writer.isSome then
    .error "cannot create a new file while there is an open writer"
  else if ¬ w.is_below_quota then .ok w
  else
    .ok (ParquetWriter.update_current_writer_size
      { w with current_writer := some ⟨[], 0⟩ })

/-- `ParquetWriter::new(config)`. -/
def ParquetWriter.new (config : PWConfig) : Except String ParquetWriter :=
  ParquetWriter.create_new_file
    { current_writer := none
      closed_files_size := 0
      flushed_row_groups_size := 0
      flushed_row_groups_count := 0
      in_memory_size := 0
      config := config
      store_bytes := 0 }

/-- `ParquetWriter::maybe_rotate_file()`. -/
def ParquetWriter.maybe_rotate_file (w : ParquetWriter) : Except String ParquetWriter :=
  if w.flushed_row_groups_size + w.in_memory_size ≥ w.config.file_size_limit then
    w.close_writer.create_new_file
  else .ok w

/-- `ParquetWriter::write(batch)`. -/
def ParquetWriter.write (w : ParquetWriter) (batch_bytes : Nat) : Except String ParquetWriter :=
  if ¬ w.is_below_quota then .ok w
  else
    match w.current_writer with
    | none => .error "no writer available"
    | some aw =>
      let w1 := ParquetWriter.update_current_writer_size
        { w with current_writer := some (aw.write batch_bytes) }
      if ¬ w1.is_below_quota then
        let w2 := w1.close_writer
        let w3 :=
          match w2.config.storage_quota with
          | some quota => { w2 with closed_files_size := quota }
          | none => w2
        .ok w3
      else
        let w2 := if w1.in_memory_size ≥ w1.config.buffer_size then w1.flush else w1
        w2.maybe_rotate_file

/-- `ParquetWriter::rotate()` (external rotation signal). -/
def ParquetWriter.rotate (w : ParquetWriter) : Except String ParquetWriter :=
  w.close_writer.create_new_file

/-- Operations driven by the writer task: a record batch (abstracted to its
compressed byte contribution) or an external rotation signal. -/
inductive WriterOp where
  | write (batch_bytes : Nat)
  | rotate
deriving DecidableEq, Repr

/-- Apply one operation. -/
def ParquetWriter.step (w : ParquetWriter) : WriterOp → Except String ParquetWriter
  | .write b => w.write b
  | .rotate => w.rotate

/-- Apply a list of operations in order, stopping at the first error. -/
def ParquetWriter.runOps (w : ParquetWriter) : List WriterOp → Except String ParquetWriter
  | [] => .ok w
  | op :: rest => do
    let w' ← w.step op
    w'.runOps rest

/-- Total compressed bytes of all files the writer produces: bytes already in
the object store plus the pending bytes of the open file (which reach the
store when it is flushed or closed). -/
def ParquetWriter.producedBytes (w : ParquetWriter) : Nat :=
  w.store_bytes + (match w.current_writer with | some aw => aw.in_progress | none => 0)

/-! ## Auxiliary predicates used in the theorem statements -/

/-- Timestamp of the last successful `update` for a CPU within an update
sequence. -/
def lastTsOf (updates : List (Nat × Nat)) (cpu : Nat) : Option Nat :=
  ((updates.filter (fun u => u.1 = cpu)).map Prod.snd).getLast?

/-- The count a `BTreeMap<u64, usize>` stores for a key (0 when absent). -/
def btCount (l : List (Nat × Nat)) (key : Nat) : Nat := (btGet l key).getD 0

/-- Representation invariant of the sorted-association-list `BTreeMap` model:
strictly ascending keys and positive counts. -/
def btWF (l : List (Nat × Nat)) : Prop :=
  l.Pairwise (fun a b => a.1 < b.1) ∧ ∀ kv ∈ l, 0 < kv.2

/-- Whether a CPU's latest timestamp falls in a given slot. -/
def inSlot (w s : Nat) : Option Nat → Bool
  | none => false
  | some ts => ts / w = s

/-- The `MinTracker` state invariant: the uninitialised counter counts the
unreported CPUs, and `time_slot_counts` is the well-formed multiset of the
slots of the reported CPUs' latest timestamps. -/
def MinTracker.Inv (t : MinTracker) : Prop :=
  t.uninitialized_cpus = t.cpu_timestamps.countP (fun o => o.isNone) ∧
  btWF t.time_slot_counts ∧
  ∀ s : Nat, btCount t.time_slot_counts s =
    t.cpu_timestamps.countP (inSlot t.time_slot_size s)

/-- Min-heap property (on timestamps) of the heap's backing vector: every
non-root element is at least its parent.  This is Rust's max-heap property
under the reversed `Ord` of `PerfEntry`. -/
def heapInv (d : List PerfEntry) : Prop :=
  ∀ j, 0 < j → j < d.length → (hget d ((j - 1) / 2)).timestamp ≤ (hget d j).timestamp

/-- Precondition of `sift_up(0, pos)`: the parent-child inequality holds at
every index except `pos`, and the element above the hole bounds the hole's
children. -/
def UpInv (d : List PerfEntry) (pos : Nat) : Prop :=
  (∀ j, 0 < j → j < d.length → j ≠ pos →
    (hget d ((j - 1) / 2)).timestamp ≤ (hget d j).timestamp) ∧
  (∀ c, 0 < c → c < d.length → (c - 1) / 2 = pos → 0 < pos →
    (hget d ((pos - 1) / 2)).timestamp ≤ (hget d c).timestamp)

/-- Precondition of the descent loop of `sift_down_to_bottom`: the
parent-child inequality holds at every edge not incident to `pos`, and the
element above the hole bounds the hole's children. -/
def DownInv (d : List PerfEntry) (pos : Nat) : Prop :=
  (∀ j, 0 < j → j < d.length → j ≠ pos → (j - 1) / 2 ≠ pos →
    (hget d ((j - 1) / 2)).timestamp ≤ (hget d j).timestamp) ∧
  (∀ c, 0 < c → c < d.length → (c - 1) / 2 = pos → 0 < pos →
    (hget d ((pos - 1) / 2)).timestamp ≤ (hget d c).timestamp)

/-- The heap entries a list of rings should contribute, in ring order:
one entry per non-empty ring, keyed by its head record. -/
def headEntriesAux : Nat → List RecordRing → List PerfEntry
  | _, [] => []
  | i, ring :: rest =>
    match ring.records.head? with
    | some rec => ⟨recordKey rec, i⟩ :: headEntriesAux (i + 1) rest
    | none => headEntriesAux (i + 1) rest

/-- Entries of all rings, indexed from 0. -/
def headEntries (rings : List RecordRing) : List PerfEntry :=
  headEntriesAux 0 rings

/-- A ring whose records appear in non-decreasing heap-key order. -/
def ringKeySorted (r : RecordRing) : Prop :=
  (r.records.map recordKey).Sorted (· ≤ ·)

/-- Reader invariant for the merge-order theorems: active, heap contents in
bijection with the non-empty rings' head entries, heap shape valid, every
ring key-sorted, and `in_heap` long enough. -/
def ReaderInv (r : Reader) : Prop :=
  r.active = true ∧
  heapInv r.heap ∧
  r.heap.Perm (headEntries r.rings) ∧
  (∀ ring ∈ r.rings, ringKeySorted ring)

/-- The heap keys of a consumed-record sequence. -/
def consumedKeys (l : List (Nat × RingRecord)) : List Nat :=
  l.map (fun c => recordKey c.2)

/-- `ParquetWriter` invariant (quota configured as `q`, all batches at most
`M` bytes): while a writer is open the tracked sizes mirror the writer state,
the store has exactly the closed and flushed bytes, and the tracked total is
below the quota; once no writer is open the quota check fails (writes are
skipped forever) and at most `q + M` bytes were ever produced. -/
def PWInv (q M : Nat) (w : ParquetWriter) : Prop :=
  w.config.storage_quota = some q ∧
  match w.current_writer with
  | some aw =>
    w.in_memory_size = aw.in_progress ∧
    w.flushed_row_groups_size = aw.flushed_groups.sum ∧
    w.flushed_row_groups_count = aw.flushed_groups.length ∧
    w.store_bytes = w.closed_files_size + aw.flushed_groups.sum ∧
    w.closed_files_size + aw.flushed_groups.sum + aw.in_progress < q
  | none =>
    w.is_below_quota = false ∧
    w.in_memory_size = 0 ∧
    w.flushed_row_groups_size = 0 ∧
    w.producedBytes ≤ q + M

/-! # Lemmas and claim theorems -/

/-! ## Association-map lemmas -/

theorem amGet_amInsert_self {β : Type} (m : List (Nat × β)) (k : Nat) (v : β) :
    amGet (amInsert m k v) k = some v := by
  induction m with
  | nil => simp [amInsert, amGet]
  | cons kv rest ih =>
    obtain ⟨k', v'⟩ := kv
    by_cases h : k = k' <;> simp [amInsert, amGet, h, ih]

theorem amGet_amInsert_ne {β : Type} (m : List (Nat × β)) (k key : Nat) (v : β)
    (h : key ≠ k) : amGet (amInsert m k v) key = amGet m key := by
  induction m with
  | nil => simp [amInsert, amGet, h]
  | cons kv rest ih =>
    obtain ⟨k', v'⟩ := kv
    by_cases h' : k = k'
    · subst h'
      simp [amInsert, amGet, h]
    · by_cases h'' : key = k' <;> simp [amInsert, amGet, h', h'', ih]

theorem amGet_amRemove_ne {β : Type} (m : List (Nat × β)) (k key : Nat)
    (h : key ≠ k) : amGet (amRemove m k) key = amGet m key := by
  induction m with
  | nil => simp [amRemove]
  | cons kv rest ih =>
    obtain ⟨k', v'⟩ := kv
    by_cases h' : k = k'
    · subst h'
      simp [amRemove, amGet, h]
    · by_cases h'' : key = k' <;> simp [amRemove, amGet, h', h'', ih]

theorem amGet_eq_none_of_not_mem_keys {β : Type} (m : List (Nat × β)) (k : Nat)
    (h : k ∉ m.map Prod.fst) : amGet m k = none := by
  induction m with
  | nil => rfl
  | cons kv rest ih =>
    obtain ⟨k', v'⟩ := kv
    simp only [List.map_cons, List.mem_cons, not_or] at h
    simp only [amGet, if_neg h.1]
    exact ih h.2

theorem amRemove_keys_subset {β : Type} (m : List (Nat × β)) (k : Nat) :
    ∀ x ∈ (amRemove m k).map Prod.fst, x ∈ m.map Prod.fst := by
  induction m with
  | nil => simp [amRemove]
  | cons kv rest ih =>
    obtain ⟨k', v'⟩ := kv
    by_cases h : k = k'
    · simp only [amRemove, if_pos h, List.map_cons]
      exact fun x hx => List.mem_cons_of_mem _ hx
    · simp only [amRemove, if_neg h, List.map_cons, List.mem_cons]
      rintro x (rfl | hx)
      · exact Or.inl rfl
      · exact Or.inr (ih x hx)

theorem amInsert_keys_subset {β : Type} (m : List (Nat × β)) (k : Nat) (v : β) :
    ∀ x ∈ (amInsert m k v).map Prod.fst, x ∈ m.map Prod.fst ∨ x = k := by
  induction m with
  | nil =>
    intro x hx
    simp only [amInsert, List.map_cons, List.map_nil, List.mem_cons,
      List.not_mem_nil, or_false] at hx
    exact Or.inr hx
  | cons kv rest ih =>
    obtain ⟨k', v'⟩ := kv
    intro x hx
    by_cases h : k = k'
    · have he : amInsert ((k', v') :: rest) k v = (k, v) :: rest := by
        simp [amInsert, h]
      rw [he] at hx
      simp only [List.map_cons, List.mem_cons] at hx
      rcases hx with rfl | hx2
      · exact Or.inr rfl
      · exact Or.inl (List.mem_cons_of_mem _ hx2)
    · have he : amInsert ((k', v') :: rest) k v = (k', v') :: amInsert rest k v := by
        simp [amInsert, h]
      rw [he] at hx
      simp only [List.map_cons, List.mem_cons] at hx
      rcases hx with rfl | hx2
      · exact Or.inl (List.mem_cons_self _ _)
      · rcases ih x hx2 with h2 | h2
        · exact Or.inl (List.mem_cons_of_mem _ h2)
        · exact Or.inr h2

theorem amGet_amRemove_self {β : Type} (m : List (Nat × β)) (k : Nat)
    (h : (m.map Prod.fst).Nodup) : amGet (amRemove m k) k = none := by
  induction m with
  | nil => rfl
  | cons kv rest ih =>
    obtain ⟨k', v'⟩ := kv
    simp only [List.map_cons, List.nodup_cons] at h
    by_cases h' : k = k'
    · subst h'
      simp only [amRemove, if_pos rfl]
      exact amGet_eq_none_of_not_mem_keys rest k h.1
    · simp only [amRemove, if_neg h', amGet, if_neg h']
      exact ih h.2

theorem amGet_none_amRemove {β : Type} (m : List (Nat × β)) (k p : Nat)
    (h : amGet m p = none) : amGet (amRemove m k) p = none := by
  induction m with
  | nil => rfl
  | cons kv rest ih =>
    obtain ⟨k', v'⟩ := kv
    simp only [amGet] at h
    by_cases hp : p = k'
    · simp [hp] at h
    · simp only [if_neg hp] at h
      by_cases h' : k = k'
      · simpa [amRemove, h'] using h
      · simp only [amRemove, if_neg h', amGet, if_neg hp]
        exact ih h

theorem amInsert_keys_nodup {β : Type} (m : List (Nat × β)) (k : Nat) (v : β)
    (h : (m.map Prod.fst).Nodup) : ((amInsert m k v).map Prod.fst).Nodup := by
  induction m with
  | nil => simp [amInsert]
  | cons kv rest ih =>
    obtain ⟨k', v'⟩ := kv
    simp only [List.map_cons, List.nodup_cons] at h
    by_cases h' : k = k'
    · have he : amInsert ((k', v') :: rest) k v = (k, v) :: rest := by
        simp [amInsert, h']
      rw [he, List.map_cons, List.nodup_cons]
      exact ⟨h' ▸ h.1, h.2⟩
    · have he : amInsert ((k', v') :: rest) k v = (k', v') :: amInsert rest k v := by
        simp [amInsert, h']
      rw [he, List.map_cons, List.nodup_cons]
      refine ⟨fun hmem => ?_, ih h.2⟩
      rcases amInsert_keys_subset rest k v k' hmem with hh | hh
      · exact h.1 hh
      · exact h' hh.symm

theorem amRemove_keys_nodup {β : Type} (m : List (Nat × β)) (k : Nat)
    (h : (m.map Prod.fst).Nodup) : ((amRemove m k).map Prod.fst).Nodup := by
  induction m with
  | nil => simp [amRemove]
  | cons kv rest ih =>
    obtain ⟨k', v'⟩ := kv
    simp only [List.map_cons, List.nodup_cons] at h
    by_cases h' : k = k'
    · simpa [amRemove, h'] using h.2
    · simp only [amRemove, if_neg h', List.map_cons, List.nodup_cons]
      exact ⟨fun hmem => h.1 (amRemove_keys_subset rest k k' hmem), ih h.2⟩

/-! ## Claim C10 — first metadata snapshot wins within a timeslot -/

/-- Claim C10: for every `TimeslotData` and pid already present in it,
`update(pid, metadata, metrics)` adds the metrics into the existing entry's
counters but leaves the stored metadata snapshot unchanged (the metadata
argument of the later call is ignored), and no other entry or field changes —
so the snapshot captured by the first sample for that pid in the timeslot is
the one emitted. -/
theorem claim_C10_first_metadata_wins (t : TimeslotData) (p : Nat) (td : TaskData)
    (md : Option TaskMetadata) (m : Metric) (h : amGet t.tasks p = some td) :
    amGet (t.update p md m).tasks p = some ⟨td.metadata, td.metrics.add m⟩ ∧
    (∀ q, q ≠ p → amGet (t.update p md m).tasks q = amGet t.tasks q) ∧
    (t.update p md m).start_timestamp = t.start_timestamp := by
  unfold TimeslotData.update
  rw [h]
  refine ⟨amGet_amInsert_self t.tasks p _, fun q hq => amGet_amInsert_ne t.tasks p q _ hq, rfl⟩

/-- Witness for C10 at a concrete timeslot: pid 1 is present with metadata
`some ⟨1, [7]⟩` and metrics all 1; a second update with different metadata
`some ⟨1, [9]⟩` and metrics all 2 accumulates the counters and keeps the old
snapshot. -/
theorem claim_C10_first_metadata_wins_witness :
    amGet ((TimeslotData.mk 5 [(1, ⟨some ⟨1, [7]⟩, ⟨1, 1, 1, 1, 1⟩⟩)]).update 1
      (some ⟨1, [9]⟩) ⟨2, 2, 2, 2, 2⟩).tasks 1 =
      some ⟨some ⟨1, [7]⟩, (Metric.mk 1 1 1 1 1).add ⟨2, 2, 2, 2, 2⟩⟩ ∧
    (∀ q, q ≠ 1 → amGet ((TimeslotData.mk 5 [(1, ⟨some ⟨1, [7]⟩, ⟨1, 1, 1, 1, 1⟩⟩)]).update 1
      (some ⟨1, [9]⟩) ⟨2, 2, 2, 2, 2⟩).tasks q =
      amGet (TimeslotData.mk 5 [(1, ⟨some ⟨1, [7]⟩, ⟨1, 1, 1, 1, 1⟩⟩)]).tasks q) ∧
    ((TimeslotData.mk 5 [(1, ⟨some ⟨1, [7]⟩, ⟨1, 1, 1, 1, 1⟩⟩)]).update 1
      (some ⟨1, [9]⟩) ⟨2, 2, 2, 2, 2⟩).start_timestamp = 5 :=
  claim_C10_first_metadata_wins ⟨5, [(1, ⟨some ⟨1, [7]⟩, ⟨1, 1, 1, 1, 1⟩⟩)]⟩ 1
    ⟨some ⟨1, [7]⟩, ⟨1, 1, 1, 1, 1⟩⟩ (some ⟨1, [9]⟩) ⟨2, 2, 2, 2, 2⟩ (by rfl)

/-! ## Claim C8 — non-monotonic rejection is atomic -/

/-- Claim C8: for every `MinTracker` state and in-range CPU that previously
reported `prev`, `update(cpu, ts)` with `ts < prev` returns
`NonMonotonicTimestamp` carrying the tracker state unchanged (both error
paths of the Rust method return before any field is written), so per-CPU
timestamps, slot counts, the uninitialised count and `get_min` are all
untouched; with `ts ≥ prev` the update succeeds. -/
theorem claim_C8_nonmonotonic_atomic (t : MinTracker) (cpu ts prev : Nat)
    (hcpu : cpu < t.cpu_timestamps.length)
    (hprev : t.cpu_timestamps.getD cpu none = some prev) :
    (ts < prev → t.update cpu ts = .error (.nonMonotonicTimestamp cpu prev ts, t)) ∧
    (prev ≤ ts → ∃ t', t.update cpu ts = .ok t') := by
  have hnotge : ¬ cpu ≥ t.cpu_timestamps.length := by omega
  constructor
  · intro hlt
    unfold MinTracker.update
    simp only [if_neg hnotge, hprev]
    rw [if_pos (by omega : prev > ts)]
  · intro hle
    unfold MinTracker.update
    simp only [if_neg hnotge, hprev]
    rw [if_neg (by omega : ¬ prev > ts)]
    exact ⟨_, rfl⟩

/-- Witness for C8: one CPU with latest timestamp 5000 in a tracker with slot
width 1000; an update to 4000 is rejected atomically and an update to 6000
succeeds. -/
theorem claim_C8_nonmonotonic_atomic_witness :
    ((4000 : Nat) < 5000 →
      (MinTracker.mk 1000 [some 5000] [(5, 1)] 0).update 0 4000 =
        .error (.nonMonotonicTimestamp 0 5000 4000, MinTracker.mk 1000 [some 5000] [(5, 1)] 0)) ∧
    ((5000 : Nat) ≤ 4000 → ∃ t', (MinTracker.mk 1000 [some 5000] [(5, 1)] 0).update 0 4000 = .ok t') :=
  claim_C8_nonmonotonic_atomic (MinTracker.mk 1000 [some 5000] [(5, 1)] 0) 0 4000 5000
    (by decide) (by rfl)

/-! ## Claim C9 — deferred task removal -/

theorem foldl_amRemove_none {β : Type} (p : Nat) :
    ∀ (q : List Nat) (tasks : List (Nat × β)), amGet tasks p = none →
    amGet (q.foldl (fun m pid => amRemove m pid) tasks) p = none := by
  intro q
  induction q with
  | nil => exact fun tasks h => h
  | cons x rest ih => exact fun tasks h => ih _ (amGet_none_amRemove _ _ _ h)

theorem foldl_amRemove_mem {β : Type} (p : Nat) :
    ∀ (q : List Nat) (tasks : List (Nat × β)), (tasks.map Prod.fst).Nodup → p ∈ q →
    amGet (q.foldl (fun m pid => amRemove m pid) tasks) p = none := by
  intro q
  induction q with
  | nil => intro tasks _ h; exact absurd h (List.not_mem_nil p)
  | cons x rest ih =>
    intro tasks hnd hmem
    rcases List.mem_cons.mp hmem with rfl | hmem'
    · exact foldl_amRemove_none p rest _ (amGet_amRemove_self _ _ hnd)
    · exact ih _ (amRemove_keys_nodup _ _ hnd) hmem'

theorem taskRun_preserves (p : Nat) (m : TaskMetadata) :
    ∀ (ops : List TaskOp) (c : TaskCollection),
    (c.tasks.map Prod.fst).Nodup →
    c.lookup p = some m → p ∈ c.removal_queue →
    (∀ op ∈ ops, op ≠ TaskOp.flushRemovals ∧ ∀ md, op = TaskOp.add md → md.pid ≠ p) →
    ((c.run ops).tasks.map Prod.fst).Nodup ∧
    (c.run ops).lookup p = some m ∧ p ∈ (c.run ops).removal_queue := by
  intro ops
  induction ops with
  | nil => exact fun c h1 h2 h3 _ => ⟨h1, h2, h3⟩
  | cons op rest ih =>
    intro c h1 h2 h3 hops
    have hop := hops op (List.mem_cons_self _ _)
    have hrest := fun o ho => hops o (List.mem_cons_of_mem _ ho)
    have hrun : c.run (op :: rest) = (c.step op).run rest := rfl
    rw [hrun]
    cases op with
    | add md =>
      have hpid : md.pid ≠ p := hop.2 md rfl
      refine ih _ (amInsert_keys_nodup _ _ _ h1) ?_ h3 hrest
      show amGet (amInsert c.tasks md.pid md) p = some m
      rw [amGet_amInsert_ne _ _ _ _ (Ne.symm hpid)]
      exact h2
    | queueRemoval q =>
      simp only [TaskCollection.step, TaskCollection.queue_removal]
      by_cases hq : (amGet c.tasks q).isSome
      · rw [if_pos hq]
        exact ih _ h1 h2 (List.mem_append_left _ h3) hrest
      · rw [if_neg hq]
        exact ih _ h1 h2 h3 hrest
    | flushRemovals => exact absurd rfl hop.1

/-- Claim C9 (amended only in making the metadata-stability caveat explicit):
for every pid `p` present in the `TaskCollection`, after `queue_removal p`
(the `on_free` path) and through any further operations that are neither a
timeslot advance (`flush_removals`) nor a new `add` for `p`, `lookup p` still
returns the metadata; after the next `flush_removals` (timeslot advance),
`lookup p` returns `none`. -/
theorem claim_C9_deferred_removal (c : TaskCollection) (p : Nat) (m : TaskMetadata)
    (ops : List TaskOp)
    (hnd : (c.tasks.map Prod.fst).Nodup)
    (hm : c.lookup p = some m)
    (hops : ∀ op ∈ ops, op ≠ TaskOp.flushRemovals ∧ ∀ md, op = TaskOp.add md → md.pid ≠ p) :
    ((c.queue_removal p).run ops).lookup p = some m ∧
    ((c.queue_removal p).run ops).flush_removals.lookup p = none := by
  have hq : c.queue_removal p =
      { c with removal_queue := c.removal_queue ++ [p] } := by
    unfold TaskCollection.queue_removal
    rw [if_pos (by rw [show amGet c.tasks p = some m from hm]; rfl)]
  have hqueue : p ∈ (c.queue_removal p).removal_queue := by
    rw [hq]
    exact List.mem_append_right _ (List.mem_singleton.mpr rfl)
  have hlook : (c.queue_removal p).lookup p = some m := by rw [hq]; exact hm
  have hnd' : ((c.queue_removal p).tasks.map Prod.fst).Nodup := by rw [hq]; exact hnd
  obtain ⟨h1, h2, h3⟩ := taskRun_preserves p m ops (c.queue_removal p) hnd' hlook hqueue hops
  refine ⟨h2, ?_⟩
  show amGet ((((c.queue_removal p).run ops).removal_queue).foldl
    (fun m pid => amRemove m pid) (((c.queue_removal p).run ops).tasks)) p = none
  exact foldl_amRemove_mem p _ _ h1 h3

/-- Witness for C9: pid 42 present, freed, one unrelated metadata add (pid 7)
in between, then the timeslot advance. -/
theorem claim_C9_deferred_removal_witness :
    (((TaskCollection.mk [(42, ⟨42, [1]⟩)] []).queue_removal 42).run
      [TaskOp.add ⟨7, [2]⟩]).lookup 42 = some ⟨42, [1]⟩ ∧
    ((((TaskCollection.mk [(42, ⟨42, [1]⟩)] []).queue_removal 42).run
      [TaskOp.add ⟨7, [2]⟩]).flush_removals).lookup 42 = none :=
  claim_C9_deferred_removal (TaskCollection.mk [(42, ⟨42, [1]⟩)] []) 42 ⟨42, [1]⟩
    [TaskOp.add ⟨7, [2]⟩] (by decide) (by rfl)
    (by
      intro op hop
      rcases List.mem_singleton.mp hop with rfl
      exact ⟨by decide, fun md hmd => by cases hmd; decide⟩)

/-! ## Claim C4 — dispatcher behaviour on a malformed sample -/

/-- Claim C4, amended: when the record at the head of the reader has type
`PERF_RECORD_SAMPLE` but its payload is too short to contain the sample
header (16 bytes), `Dispatcher::dispatch` returns `InvalidFormat` and leaves
the reader and every statistics counter unchanged: the `?` on the
`plain::from_bytes` error returns before the `reader.pop()` call and before
any counter update, so the record is *not* dropped or popped and a subsequent
dispatch sees the same record again. -/
theorem claim_C4_malformed_sample (d : Dispatcher) (r : Reader) (e : PerfEntry)
    (rec : RingRecord)
    (hact : r.active = true)
    (hpeek : heapPeek r.heap = some e)
    (hrec : (r.rings.getD e.ring_index ⟨[]⟩).records.head? = some rec)
    (hty : rec.type_ = PERF_RECORD_SAMPLE)
    (hshort : rec.content.length < 16) :
    d.dispatch r = .error (.invalidFormat, d, r) := by
  have hne : ¬ r.heap.isEmpty = true := by
    intro h
    rw [List.isEmpty_iff] at h
    rw [h] at hpeek
    exact Option.noConfusion hpeek
  have hempty : ¬ r.is_empty = true := by
    unfold Reader.is_empty
    rw [hact]
    simpa using hne
  have hcr : r.current_ring = .ok (r.rings.getD e.ring_index ⟨[]⟩, e.ring_index) := by
    unfold Reader.current_ring
    rw [hact]
    simp [hpeek]
  have hrec2 : ((r.rings[e.ring_index]?).getD ⟨[]⟩ : RecordRing).records.head? = some rec := by
    rw [← List.getD_eq_getElem?_getD]
    exact hrec
  unfold Dispatcher.dispatch
  rw [if_neg hempty, hcr]
  simp [hrec2, hty, hshort]

/-- Witness for C4 (amended) at the concrete malformed sample of the source's
`test_invalid_message_format` (payload `[1,0,0,0]`, giving an 8-byte record
content `[8,0,0,0,1,0,0,0]`). -/
theorem claim_C4_malformed_sample_witness :
    Dispatcher.new.dispatch
      (Reader.mk [⟨[⟨PERF_RECORD_SAMPLE, [8, 0, 0, 0, 1, 0, 0, 0]⟩]⟩]
        [⟨0, 0⟩] [true] true) =
      .error (.invalidFormat, Dispatcher.new,
        Reader.mk [⟨[⟨PERF_RECORD_SAMPLE, [8, 0, 0, 0, 1, 0, 0, 0]⟩]⟩] [⟨0, 0⟩] [true] true) :=
  claim_C4_malformed_sample Dispatcher.new
    (Reader.mk [⟨[⟨PERF_RECORD_SAMPLE, [8, 0, 0, 0, 1, 0, 0, 0]⟩]⟩] [⟨0, 0⟩] [true] true)
    ⟨0, 0⟩ ⟨PERF_RECORD_SAMPLE, [8, 0, 0, 0, 1, 0, 0, 0]⟩
    (by rfl) (by rfl) (by rfl) (by rfl) (by decide)

/-- Counterexample to C4 as stated: starting the reader on one ring holding a
single malformed sample and dispatching returns `InvalidFormat` with the
reader state and the dispatcher statistics (in particular the
dropped-message counter) unchanged — the record is not popped, contradicting
"the record is dropped and popped ... the dropped-message counter is
incremented and a subsequent dispatch sees the next record". -/
theorem claim_C4_counterexample :
    ∃ rd : Reader,
      (Reader.mk [⟨[⟨PERF_RECORD_SAMPLE, [8, 0, 0, 0, 1, 0, 0, 0]⟩]⟩] [] [false] false).start
        = .ok rd ∧
      Dispatcher.new.dispatch rd = .error (.invalidFormat, Dispatcher.new, rd) :=
  ⟨_, rfl, rfl⟩

/-! ## Claim C5 — ring write failure conditions -/

theorem write_eval (r : PerfRing) (data : List Nat) (ty : Nat) (hne : ¬ data.length = 0) :
    r.write data ty =
      (if r.buf_mask <
          align8 (data.length + headerSize + (if ty = PERF_RECORD_SAMPLE then 4 else 0)) then
        .error .cannotFit
      else if r.buf_mask + 1 <
          r.tail + align8 (data.length + headerSize + (if ty = PERF_RECORD_SAMPLE then 4 else 0))
            - r.head then
        .error .noSpace
      else r.write data ty) := by
  conv_lhs => unfold PerfRing.write
  rw [if_neg hne]
  by_cases h1 : r.buf_mask <
      align8 (data.length + headerSize + (if ty = PERF_RECORD_SAMPLE then 4 else 0))
  · simp only [gt_iff_lt, if_pos h1]
  · simp only [gt_iff_lt, if_neg h1]
    by_cases h2 : r.buf_mask + 1 <
        r.tail + align8 (data.length + headerSize + (if ty = PERF_RECORD_SAMPLE then 4 else 0))
          - r.head
    · simp only [if_pos h2]
    · simp only [if_neg h2]
      conv_rhs => unfold PerfRing.write
      rw [if_neg hne]
      simp only [gt_iff_lt, if_neg h1, if_neg h2]

/-- Claim C5, amended: for every nonempty payload whose record length fits
the source's `u32` length arithmetic (`data.length + 19 < 2^32`; for larger
payloads the program's `data.len() as u32` computation wraps and the size
checks act on the truncated value) and every kind, `write` fails with
`CannotFit` iff the 8-byte-aligned total length (payload + header + 4 extra
bytes for the sample kind) exceeds `buf_mask` — i.e. already when it *equals*
the buffer capacity `buf_mask + 1`, not only when it exceeds it; otherwise it
fails with `NoSpace` iff the aligned length plus the unconsumed bytes since
the tail snapshot exceeds `buf_mask + 1`; otherwise it succeeds.  An empty
payload is rejected with `EmptyWrite` before any size check. -/
theorem claim_C5_write_failures (r : PerfRing) (data : List Nat) (ty : Nat)
    (hne : data ≠ []) (hbound : data.length + 19 < 2 ^ 32) :
    (r.write data ty = .error .cannotFit ↔
      r.buf_mask <
        align8 (data.length + headerSize + (if ty = PERF_RECORD_SAMPLE then 4 else 0))) ∧
    (align8 (data.length + headerSize + (if ty = PERF_RECORD_SAMPLE then 4 else 0))
        ≤ r.buf_mask →
      (r.write data ty = .error .noSpace ↔
        r.buf_mask + 1 <
          r.tail + align8 (data.length + headerSize + (if ty = PERF_RECORD_SAMPLE then 4 else 0))
            - r.head)) ∧
    ((align8 (data.length + headerSize + (if ty = PERF_RECORD_SAMPLE then 4 else 0))
        ≤ r.buf_mask ∧
      r.tail + align8 (data.length + headerSize + (if ty = PERF_RECORD_SAMPLE then 4 else 0))
        - r.head ≤ r.buf_mask + 1) →
      ∃ off r', r.write data ty = .ok (off, r')) ∧
    r.write [] ty = .error .emptyWrite := by
  have hlen : ¬ data.length = 0 := by
    simpa [List.length_eq_zero] using hne
  have hw := write_eval r data ty hlen
  by_cases h1 : r.buf_mask <
      align8 (data.length + headerSize + (if ty = PERF_RECORD_SAMPLE then 4 else 0))
  · rw [if_pos h1] at hw
    refine ⟨⟨fun _ => h1, fun _ => hw⟩, fun hle => absurd h1 (by omega), fun hc => absurd h1 (by omega), rfl⟩
  · rw [if_neg h1] at hw
    by_cases h2 : r.buf_mask + 1 <
        r.tail + align8 (data.length + headerSize + (if ty = PERF_RECORD_SAMPLE then 4 else 0))
          - r.head
    · rw [if_pos h2] at hw
      refine ⟨⟨fun habs => ?_, fun habs => absurd habs h1⟩,
        fun _ => ⟨fun _ => h2, fun _ => hw⟩, fun hc => absurd h2 (by omega), rfl⟩
      rw [hw] at habs
      exact absurd (Except.error.inj habs) (by intro hh; cases hh)
    · rw [if_neg h2] at hw
      have hok : ∃ off r', r.write data ty = .ok (off, r') := by
        unfold PerfRing.write
        rw [if_neg hlen]
        simp only [gt_iff_lt, if_neg h1, if_neg h2]
        exact ⟨_, _, rfl⟩
      obtain ⟨off, r', hok'⟩ := hok
      refine ⟨⟨fun habs => ?_, fun habs => absurd habs h1⟩,
        fun _ => ⟨fun habs => ?_, fun habs => absurd habs h2⟩,
        fun _ => ⟨off, r', hok'⟩, rfl⟩
      · rw [hok'] at habs
        exact Except.noConfusion habs
      · rw [hok'] at habs
        exact Except.noConfusion habs

/-- Witness for C5 (amended): on an empty 64-byte ring, a 1-byte non-sample
payload (aligned length 16) succeeds, and the boundary facts of the amended
claim hold. -/
theorem claim_C5_write_failures_witness :
    ((PerfRing.mk (fun _ => 0) 64 63 0 0).write [7] 1 = .error .cannotFit ↔
      (63 : Nat) < align8 (1 + headerSize + 0)) ∧
    (align8 (1 + headerSize + 0) ≤ 63 →
      ((PerfRing.mk (fun _ => 0) 64 63 0 0).write [7] 1 = .error .noSpace ↔
        (64 : Nat) < 0 + align8 (1 + headerSize + 0) - 0)) ∧
    ((align8 (1 + headerSize + 0) ≤ 63 ∧ 0 + align8 (1 + headerSize + 0) - 0 ≤ 64) →
      ∃ off r', (PerfRing.mk (fun _ => 0) 64 63 0 0).write [7] 1 = .ok (off, r')) ∧
    (PerfRing.mk (fun _ => 0) 64 63 0 0).write [] 1 = .error .emptyWrite := by
  have h := claim_C5_write_failures (PerfRing.mk (fun _ => 0) 64 63 0 0) [7] 1 (by decide)
    (by decide)
  simpa using h

/-- Counterexample to C5 as stated: a 52-byte non-sample payload on an empty
64-byte ring has aligned length exactly 64 = `buf_mask + 1`; the claim says
`write` succeeds (64 does not exceed the capacity, and the ring is empty),
but the code's check `aligned_len > buf_mask` rejects it with `CannotFit`. -/
theorem claim_C5_counterexample :
    align8 ((List.replicate 52 7).length + headerSize + 0) = 64 ∧
    ¬ ((63 : Nat) + 1 < 64) ∧
    (0 : Nat) + 64 - 0 ≤ 63 + 1 ∧
    (PerfRing.mk (fun _ => 0) 64 63 0 0).write (List.replicate 52 7) 1 =
      .error .cannotFit := by
  refine ⟨by decide, by decide, by decide, by rfl⟩

/-! ## Claim C6 — reader tie-break on equal timestamps -/

/-- Claim C6, amended: `Ord for PerfEntry` compares only timestamps, so
entries with equal heap keys are popped in the order determined by the
`BinaryHeap` internals, not in general by ascending `ring_index`; in the
basic two-ring case — a reader started on exactly two rings whose head
records carry equal heap keys — the ring with the smaller index is consumed
first. -/
theorem claim_C6_tie_break (rec0 rec1 : RingRecord) (rest0 rest1 : List RingRecord)
    (hkey : recordKey rec0 = recordKey rec1) :
    ∃ rd, (Reader.mk [⟨rec0 :: rest0⟩, ⟨rec1 :: rest1⟩] [] [false, false] false).start
        = .ok rd ∧
      rd.popSeq 1 = [(0, rec0)] := by
  have h2 : entryLe ⟨recordKey rec1, 1⟩ ⟨recordKey rec0, 0⟩ = true := by
    simp [entryLe, hkey]
  refine ⟨⟨[⟨rec0 :: rest0⟩, ⟨rec1 :: rest1⟩],
    [⟨recordKey rec0, 0⟩, ⟨recordKey rec1, 1⟩], [true, true], true⟩, ?_, ?_⟩
  · unfold Reader.start
    simp only [List.length_cons, List.length_nil, List.length_singleton]
    rw [if_neg (by decide), if_neg (by decide)]
    have hfold : (List.range 2) = [0, 1] := by decide
    rw [hfold]
    simp only [List.foldl_cons, List.foldl_nil]
    simp [Reader.maintain_heap_entry, heapPush, heapSiftUp, siftUpF, hget, hswap, h2,
      List.getD]
  · rfl

/-- Witness for C6 (amended): two rings whose single sample records both
carry timestamp 100. -/
theorem claim_C6_tie_break_witness :
    ∃ rd, (Reader.mk
        [⟨[⟨PERF_RECORD_SAMPLE, leBytes 4 24 ++ leBytes 4 3 ++ leBytes 8 100⟩]⟩,
         ⟨[⟨PERF_RECORD_SAMPLE, leBytes 4 24 ++ leBytes 4 3 ++ leBytes 8 100⟩]⟩]
        [] [false, false] false).start = .ok rd ∧
      rd.popSeq 1 = [(0, ⟨PERF_RECORD_SAMPLE, leBytes 4 24 ++ leBytes 4 3 ++ leBytes 8 100⟩)] :=
  claim_C6_tie_break ⟨PERF_RECORD_SAMPLE, leBytes 4 24 ++ leBytes 4 3 ++ leBytes 8 100⟩
    ⟨PERF_RECORD_SAMPLE, leBytes 4 24 ++ leBytes 4 3 ++ leBytes 8 100⟩ [] [] (by rfl)

/-- Counterexample to C6 as stated: four rings each holding one sample with
the same timestamp 100.  Repeated pops consume them in ring order
`[0, 2, 1, 3]` — the `sift_down_to_bottom` of Rust's `BinaryHeap` moves ring
3's entry onto the path vacated by ring 0 and ring 2's entry to the root —
which is not ascending `ring_index` order. -/
theorem claim_C6_counterexample :
    ∃ rd, (Reader.mk
        [⟨[⟨PERF_RECORD_SAMPLE, leBytes 4 24 ++ leBytes 4 3 ++ leBytes 8 100⟩]⟩,
         ⟨[⟨PERF_RECORD_SAMPLE, leBytes 4 24 ++ leBytes 4 3 ++ leBytes 8 100⟩]⟩,
         ⟨[⟨PERF_RECORD_SAMPLE, leBytes 4 24 ++ leBytes 4 3 ++ leBytes 8 100⟩]⟩,
         ⟨[⟨PERF_RECORD_SAMPLE, leBytes 4 24 ++ leBytes 4 3 ++ leBytes 8 100⟩]⟩]
        [] [false, false, false, false] false).start = .ok rd ∧
      (rd.popSeq 4).map Prod.fst = [0, 2, 1, 3] ∧
      ¬ ((rd.popSeq 4).map Prod.fst).Sorted (· ≤ ·) :=
  ⟨_, rfl, by decide, by decide⟩

/-! ## Claim C7 — MinTracker minimum: sorted-map lemmas -/

theorem getD_set_self {α : Type} (l : List α) (i : Nat) (v dflt : α) (h : i < l.length) :
    (l.set i v).getD i dflt = v := by
  induction l generalizing i with
  | nil => simp at h
  | cons a rest ih =>
    cases i with
    | zero => rfl
    | succ j =>
      simp only [List.set_cons_succ, List.getD_cons_succ]
      exact ih j (by simpa using h)

theorem getD_set_ne {α : Type} (l : List α) (i j : Nat) (v dflt : α) (h : j ≠ i) :
    (l.set i v).getD j dflt = l.getD j dflt := by
  induction l generalizing i j with
  | nil => simp
  | cons a rest ih =>
    cases i with
    | zero =>
      cases j with
      | zero => exact absurd rfl h
      | succ j' => rfl
    | succ i' =>
      cases j with
      | zero => rfl
      | succ j' =>
        simp only [List.set_cons_succ, List.getD_cons_succ]
        exact ih i' j' (by omega)

theorem countP_set {α : Type} (p : α → Bool) (l : List α) (i : Nat) (v dflt : α)
    (h : i < l.length) :
    (l.set i v).countP p + (if p (l.getD i dflt) then 1 else 0) =
      l.countP p + (if p v then 1 else 0) := by
  induction l generalizing i with
  | nil => simp at h
  | cons a rest ih =>
    cases i with
    | zero =>
      simp only [List.set_cons_zero, List.getD_cons_zero, List.countP_cons]
      omega
    | succ j =>
      simp only [List.set_cons_succ, List.getD_cons_succ, List.countP_cons]
      have := ih j (by simpa using h)
      omega

theorem btGet_mem (l : List (Nat × Nat)) (k c : Nat) (h : btGet l k = some c) :
    (k, c) ∈ l := by
  induction l with
  | nil => exact absurd h (by simp [btGet])
  | cons kv rest ih =>
    obtain ⟨k1, v1⟩ := kv
    by_cases hk : k = k1
    · subst hk
      simp [btGet] at h
      subst h
      exact List.mem_cons_self _ _
    · simp only [btGet, if_neg hk] at h
      exact List.mem_cons_of_mem _ (ih h)

theorem btGet_eq_none_of_lt_all (l : List (Nat × Nat)) (k : Nat)
    (h : ∀ kv ∈ l, k < kv.1) : btGet l k = none := by
  induction l with
  | nil => rfl
  | cons kv rest ih =>
    obtain ⟨k1, v1⟩ := kv
    have h1 := h (k1, v1) (List.mem_cons_self _ _)
    simp only [btGet, if_neg (by omega : ¬ k = k1)]
    exact ih fun kv hkv => h kv (List.mem_cons_of_mem _ hkv)

theorem btIncr_keys_subset (l : List (Nat × Nat)) (k : Nat) :
    ∀ kv ∈ btIncr l k, kv.1 ∈ l.map Prod.fst ∨ kv.1 = k := by
  induction l with
  | nil =>
    intro kv hkv
    simp only [btIncr, List.mem_singleton] at hkv
    subst hkv
    exact Or.inr rfl
  | cons kv1 rest ih =>
    obtain ⟨k1, v1⟩ := kv1
    intro kv hkv
    by_cases hk : k = k1
    · rw [show btIncr ((k1, v1) :: rest) k = (k1, v1 + 1) :: rest by
        simp [btIncr, hk]] at hkv
      rcases List.mem_cons.mp hkv with rfl | hm
      · exact Or.inl (by simp)
      · exact Or.inl (by simp; exact Or.inr ⟨kv.2, hm⟩)
    · by_cases hlt : k < k1
      · rw [show btIncr ((k1, v1) :: rest) k = (k, 1) :: (k1, v1) :: rest by
          simp [btIncr, hk, hlt]] at hkv
        rcases List.mem_cons.mp hkv with rfl | hm
        · exact Or.inr rfl
        · exact Or.inl (by
            rcases List.mem_cons.mp hm with rfl | hm2
            · simp
            · simp
              exact Or.inr ⟨kv.2, hm2⟩)
      · rw [show btIncr ((k1, v1) :: rest) k = (k1, v1) :: btIncr rest k by
          simp [btIncr, hk, hlt]] at hkv
        rcases List.mem_cons.mp hkv with rfl | hm
        · exact Or.inl (by simp)
        · rcases ih kv hm with hh | hh
          · exact Or.inl (by simp at hh ⊢; tauto)
          · exact Or.inr hh

theorem btIncr_pairwise (l : List (Nat × Nat)) (k : Nat)
    (h : l.Pairwise (fun a b => a.1 < b.1)) :
    (btIncr l k).Pairwise (fun a b => a.1 < b.1) := by
  induction l with
  | nil => simp [btIncr]
  | cons kv1 rest ih =>
    obtain ⟨k1, v1⟩ := kv1
    rw [List.pairwise_cons] at h
    by_cases hk : k = k1
    · rw [show btIncr ((k1, v1) :: rest) k = (k1, v1 + 1) :: rest by simp [btIncr, hk]]
      rw [List.pairwise_cons]
      exact h
    · by_cases hlt : k < k1
      · rw [show btIncr ((k1, v1) :: rest) k = (k, 1) :: (k1, v1) :: rest by
          simp [btIncr, hk, hlt]]
        rw [List.pairwise_cons]
        refine ⟨?_, List.pairwise_cons.mpr h⟩
        intro kv hkv
        rcases List.mem_cons.mp hkv with rfl | hm
        · exact hlt
        · exact lt_trans hlt (h.1 kv hm)
      · rw [show btIncr ((k1, v1) :: rest) k = (k1, v1) :: btIncr rest k by
          simp [btIncr, hk, hlt]]
        rw [List.pairwise_cons]
        refine ⟨?_, ih h.2⟩
        intro kv hkv
        rcases btIncr_keys_subset rest k kv hkv with hh | hh
        · rcases List.mem_map.mp hh with ⟨kv2, hkv2, hfst⟩
          rw [← hfst]
          exact h.1 kv2 hkv2
        · rw [hh]; omega

theorem btIncr_pos (l : List (Nat × Nat)) (k : Nat)
    (h : ∀ kv ∈ l, 0 < kv.2) : ∀ kv ∈ btIncr l k, 0 < kv.2 := by
  induction l with
  | nil =>
    intro kv hkv
    simp only [btIncr, List.mem_singleton] at hkv
    simp [hkv]
  | cons kv1 rest ih =>
    obtain ⟨k1, v1⟩ := kv1
    intro kv hkv
    by_cases hk : k = k1
    · rw [show btIncr ((k1, v1) :: rest) k = (k1, v1 + 1) :: rest by simp [btIncr, hk]] at hkv
      rcases List.mem_cons.mp hkv with rfl | hm
      · simp
      · exact h kv (List.mem_cons_of_mem _ hm)
    · by_cases hlt : k < k1
      · rw [show btIncr ((k1, v1) :: rest) k = (k, 1) :: (k1, v1) :: rest by
          simp [btIncr, hk, hlt]] at hkv
        rcases List.mem_cons.mp hkv with rfl | hm
        · simp
        · exact h kv hm
      · rw [show btIncr ((k1, v1) :: rest) k = (k1, v1) :: btIncr rest k by
          simp [btIncr, hk, hlt]] at hkv
        rcases List.mem_cons.mp hkv with rfl | hm
        · exact h (k1, v1) (List.mem_cons_self _ _)
        · exact ih (fun kv2 hkv2 => h kv2 (List.mem_cons_of_mem _ hkv2)) kv hm

theorem btCount_btIncr (l : List (Nat × Nat)) (k s : Nat)
    (h : l.Pairwise (fun a b => a.1 < b.1)) :
    btCount (btIncr l k) s = btCount l s + (if s = k then 1 else 0) := by
  induction l with
  | nil =>
    by_cases hs : s = k <;> simp [btIncr, btCount, btGet, hs]
  | cons kv1 rest ih =>
    obtain ⟨k1, v1⟩ := kv1
    rw [List.pairwise_cons] at h
    by_cases hk : k = k1
    · subst hk
      rw [show btIncr ((k, v1) :: rest) k = (k, v1 + 1) :: rest by simp [btIncr]]
      by_cases hs : s = k
      · subst hs
        simp [btCount, btGet]
      · simp [btCount, btGet, hs]
    · by_cases hlt : k < k1
      · rw [show btIncr ((k1, v1) :: rest) k = (k, 1) :: (k1, v1) :: rest by
          simp [btIncr, hk, hlt]]
        by_cases hs : s = k
        · subst hs
          have hnone : btGet ((k1, v1) :: rest) s = none := by
            apply btGet_eq_none_of_lt_all
            intro kv hkv
            rcases List.mem_cons.mp hkv with rfl | hm
            · exact hlt
            · exact lt_trans hlt (h.1 kv hm)
          simp only [btCount]
          rw [hnone]
          simp [btGet]
        · simp [btCount, btGet, hs]
      · rw [show btIncr ((k1, v1) :: rest) k = (k1, v1) :: btIncr rest k by
          simp [btIncr, hk, hlt]]
        by_cases hs : s = k1
        · subst hs
          have : ¬ s = k := fun hh => hk hh.symm
          simp [btCount, btGet, this]
        · simp only [btCount, btGet, if_neg hs]
          exact ih h.2

theorem btDecr_keys_subset (l : List (Nat × Nat)) (k : Nat) :
    ∀ kv ∈ btDecr l k, kv.1 ∈ l.map Prod.fst := by
  induction l with
  | nil => simp [btDecr]
  | cons kv1 rest ih =>
    obtain ⟨k1, v1⟩ := kv1
    intro kv hkv
    by_cases hk : k = k1
    · rw [show btDecr ((k1, v1) :: rest) k =
          (if v1 - 1 = 0 then rest else (k1, v1 - 1) :: rest) by simp [btDecr, hk]] at hkv
      by_cases hv : v1 - 1 = 0
      · rw [if_pos hv] at hkv
        simp only [List.map_cons, List.mem_cons]
        exact Or.inr (List.mem_map_of_mem _ hkv)
      · rw [if_neg hv] at hkv
        rcases List.mem_cons.mp hkv with rfl | hm
        · simp
        · simp only [List.map_cons, List.mem_cons]
          exact Or.inr (List.mem_map_of_mem _ hm)
    · rw [show btDecr ((k1, v1) :: rest) k = (k1, v1) :: btDecr rest k by
        simp [btDecr, hk]] at hkv
      rcases List.mem_cons.mp hkv with rfl | hm
      · simp
      · simp only [List.map_cons, List.mem_cons]
        exact Or.inr (ih kv hm)

theorem btDecr_pairwise (l : List (Nat × Nat)) (k : Nat)
    (h : l.Pairwise (fun a b => a.1 < b.1)) :
    (btDecr l k).Pairwise (fun a b => a.1 < b.1) := by
  induction l with
  | nil => simp [btDecr]
  | cons kv1 rest ih =>
    obtain ⟨k1, v1⟩ := kv1
    rw [List.pairwise_cons] at h
    by_cases hk : k = k1
    · rw [show btDecr ((k1, v1) :: rest) k =
          (if v1 - 1 = 0 then rest else (k1, v1 - 1) :: rest) by simp [btDecr, hk]]
      by_cases hv : v1 - 1 = 0
      · rw [if_pos hv]; exact h.2
      · rw [if_neg hv]
        exact List.pairwise_cons.mpr h
    · rw [show btDecr ((k1, v1) :: rest) k = (k1, v1) :: btDecr rest k by
        simp [btDecr, hk]]
      rw [List.pairwise_cons]
      refine ⟨fun kv hkv => ?_, ih h.2⟩
      rcases List.mem_map.mp (btDecr_keys_subset rest k kv hkv) with ⟨kv2, hkv2, hfst⟩
      rw [← hfst]
      exact h.1 kv2 hkv2

theorem btDecr_pos (l : List (Nat × Nat)) (k : Nat)
    (h : ∀ kv ∈ l, 0 < kv.2) : ∀ kv ∈ btDecr l k, 0 < kv.2 := by
  induction l with
  | nil => simp [btDecr]
  | cons kv1 rest ih =>
    obtain ⟨k1, v1⟩ := kv1
    intro kv hkv
    by_cases hk : k = k1
    · rw [show btDecr ((k1, v1) :: rest) k =
          (if v1 - 1 = 0 then rest else (k1, v1 - 1) :: rest) by simp [btDecr, hk]] at hkv
      by_cases hv : v1 - 1 = 0
      · rw [if_pos hv] at hkv
        exact h kv (List.mem_cons_of_mem _ hkv)
      · rw [if_neg hv] at hkv
        rcases List.mem_cons.mp hkv with rfl | hm
        · simpa using Nat.pos_of_ne_zero hv
        · exact h kv (List.mem_cons_of_mem _ hm)
    · rw [show btDecr ((k1, v1) :: rest) k = (k1, v1) :: btDecr rest k by
        simp [btDecr, hk]] at hkv
      rcases List.mem_cons.mp hkv with rfl | hm
      · exact h (k1, v1) (List.mem_cons_self _ _)
      · exact ih (fun kv2 hkv2 => h kv2 (List.mem_cons_of_mem _ hkv2)) kv hm

theorem btCount_btDecr_ne (l : List (Nat × Nat)) (k s : Nat) (h : s ≠ k) :
    btCount (btDecr l k) s = btCount l s := by
  induction l with
  | nil => rfl
  | cons kv1 rest ih =>
    obtain ⟨k1, v1⟩ := kv1
    by_cases hk : k = k1
    · rw [show btDecr ((k1, v1) :: rest) k =
          (if v1 - 1 = 0 then rest else (k1, v1 - 1) :: rest) by simp [btDecr, hk]]
      have hs1 : ¬ s = k1 := by omega
      by_cases hv : v1 - 1 = 0
      · rw [if_pos hv]
        simp [btCount, btGet, hs1]
      · rw [if_neg hv]
        simp [btCount, btGet, hs1]
    · rw [show btDecr ((k1, v1) :: rest) k = (k1, v1) :: btDecr rest k by
        simp [btDecr, hk]]
      by_cases hs : s = k1
      · simp [btCount, btGet, hs]
      · simp only [btCount, btGet, if_neg hs]
        exact ih

theorem btCount_btDecr_self (l : List (Nat × Nat)) (k c : Nat)
    (h : l.Pairwise (fun a b => a.1 < b.1)) (hget : btGet l k = some c) :
    btCount (btDecr l k) k = c - 1 := by
  induction l with
  | nil => exact absurd hget (by simp [btGet])
  | cons kv1 rest ih =>
    obtain ⟨k1, v1⟩ := kv1
    rw [List.pairwise_cons] at h
    by_cases hk : k = k1
    · subst hk
      simp [btGet] at hget
      subst hget
      rw [show btDecr ((k, v1) :: rest) k =
          (if v1 - 1 = 0 then rest else (k, v1 - 1) :: rest) by simp [btDecr]]
      have hnone2 : btGet rest k = none := btGet_eq_none_of_lt_all rest k h.1
      by_cases hv : v1 - 1 = 0
      · rw [if_pos hv]
        simp [btCount, hnone2, hv]
      · rw [if_neg hv]
        simp [btCount, btGet]
    · rw [show btDecr ((k1, v1) :: rest) k = (k1, v1) :: btDecr rest k by
        simp [btDecr, hk]]
      simp only [btGet, if_neg hk] at hget
      simp only [btCount, btGet, if_neg hk]
      exact ih h.2 hget

theorem getD_mem_of_lt {α : Type} (l : List α) (i : Nat) (dflt : α) (h : i < l.length) :
    l.getD i dflt ∈ l := by
  induction l generalizing i with
  | nil => simp at h
  | cons a rest ih =>
    cases i with
    | zero => exact List.mem_cons_self _ _
    | succ j =>
      simp only [List.getD_cons_succ]
      exact List.mem_cons_of_mem _ (ih j (by simpa using h))

theorem update_ok_inv (t : MinTracker) (cpu ts : Nat) (t' : MinTracker)
    (hInv : t.Inv) (hok : t.update cpu ts = .ok t') :
    t'.Inv ∧ t'.time_slot_size = t.time_slot_size ∧
    cpu < t.cpu_timestamps.length ∧
    t'.cpu_timestamps = t.cpu_timestamps.set cpu (some ts) := by
  obtain ⟨hu, ⟨hsort, hpos⟩, hcnt⟩ := hInv
  unfold MinTracker.update at hok
  by_cases hcpu : cpu ≥ t.cpu_timestamps.length
  · rw [if_pos hcpu] at hok
    exact absurd hok (by simp)
  · rw [if_neg hcpu] at hok
    have hcpu' : cpu < t.cpu_timestamps.length := by omega
    cases hprev : t.cpu_timestamps.getD cpu none with
    | none =>
      rw [hprev] at hok
      simp only [Except.ok.injEq] at hok
      subst hok
      refine ⟨⟨?_, ⟨btIncr_pairwise _ _ hsort, btIncr_pos _ _ hpos⟩, ?_⟩, rfl, hcpu', rfl⟩
      · show t.uninitialized_cpus - 1 =
          (t.cpu_timestamps.set cpu (some ts)).countP (fun o => o.isNone)
        have hset : (t.cpu_timestamps.set cpu (some ts)).countP (fun o => o.isNone) + 1 =
            t.cpu_timestamps.countP (fun o => o.isNone) := by
          have h0 := countP_set (fun o => o.isNone) t.cpu_timestamps cpu (some ts) none hcpu'
          rw [hprev] at h0
          simpa using h0
        omega
      · intro s
        show btCount (btIncr t.time_slot_counts (ts / t.time_slot_size)) s =
          (t.cpu_timestamps.set cpu (some ts)).countP (inSlot t.time_slot_size s)
        rw [btCount_btIncr _ _ _ hsort, hcnt s]
        have hset : (t.cpu_timestamps.set cpu (some ts)).countP (inSlot t.time_slot_size s) =
            t.cpu_timestamps.countP (inSlot t.time_slot_size s) +
              (if s = ts / t.time_slot_size then 1 else 0) := by
          have h0 := countP_set (inSlot t.time_slot_size s) t.cpu_timestamps cpu
            (some ts) none hcpu'
          rw [hprev] at h0
          by_cases hts : ts / t.time_slot_size = s
          · simp only [inSlot, hts] at h0 ⊢
            simp at h0 ⊢
            omega
          · have hts' : ¬ s = ts / t.time_slot_size := fun hh => hts hh.symm
            simp only [inSlot] at h0
            simp [hts, hts'] at h0 ⊢
            omega
        omega
    | some prev =>
      rw [hprev] at hok
      have hok2 : (if prev > ts then
            (.error (.nonMonotonicTimestamp cpu prev ts, t) :
              Except (MinTrackerError × MinTracker) MinTracker)
          else .ok { t with
            time_slot_counts :=
              if prev / t.time_slot_size ≠ ts / t.time_slot_size then
                btIncr (btDecr t.time_slot_counts (prev / t.time_slot_size))
                  (ts / t.time_slot_size)
              else t.time_slot_counts
            cpu_timestamps := t.cpu_timestamps.set cpu (some ts) }) = .ok t' := hok
      clear hok
      by_cases hmono : prev > ts
      · rw [if_pos hmono] at hok2
        exact absurd hok2 (by simp)
      · rw [if_neg hmono] at hok2
        simp only [Except.ok.injEq] at hok2
        subst hok2
        have huninit : t.uninitialized_cpus =
            (t.cpu_timestamps.set cpu (some ts)).countP (fun o => o.isNone) := by
          have h0 := countP_set (fun o => o.isNone) t.cpu_timestamps cpu (some ts) none hcpu'
          rw [hprev] at h0
          simp at h0
          omega
        have hcntset : ∀ s, (t.cpu_timestamps.set cpu (some ts)).countP
            (inSlot t.time_slot_size s) +
            (if prev / t.time_slot_size = s then 1 else 0) =
            t.cpu_timestamps.countP (inSlot t.time_slot_size s) +
            (if ts / t.time_slot_size = s then 1 else 0) := by
          intro s
          have h0 := countP_set (inSlot t.time_slot_size s) t.cpu_timestamps cpu
            (some ts) none hcpu'
          rw [hprev] at h0
          have h1 : (if inSlot t.time_slot_size s (some prev) = true then 1 else 0) =
              (if prev / t.time_slot_size = s then 1 else 0) := by
            by_cases hp : prev / t.time_slot_size = s <;> simp [inSlot, hp]
          have h2 : (if inSlot t.time_slot_size s (some ts) = true then 1 else 0) =
              (if ts / t.time_slot_size = s then 1 else 0) := by
            by_cases hp : ts / t.time_slot_size = s <;> simp [inSlot, hp]
          omega
        by_cases hslot : prev / t.time_slot_size ≠ ts / t.time_slot_size
        · rw [if_pos hslot]
          have hc1 : 0 < btCount t.time_slot_counts (prev / t.time_slot_size) := by
            rw [hcnt]
            rw [List.countP_pos_iff]
            refine ⟨some prev, ?_, by simp [inSlot]⟩
            rw [← hprev]
            exact getD_mem_of_lt _ _ _ hcpu'
          obtain ⟨c, hc⟩ : ∃ c, btGet t.time_slot_counts (prev / t.time_slot_size) = some c := by
            cases hg : btGet t.time_slot_counts (prev / t.time_slot_size) with
            | none => rw [btCount, hg] at hc1; simp at hc1
            | some c => exact ⟨c, rfl⟩
          have hcv : c = t.cpu_timestamps.countP
              (inSlot t.time_slot_size (prev / t.time_slot_size)) := by
            have h3 := hcnt (prev / t.time_slot_size)
            rw [btCount, hc] at h3
            simpa using h3
          refine ⟨⟨?_, ⟨btIncr_pairwise _ _ (btDecr_pairwise _ _ hsort),
            btIncr_pos _ _ (btDecr_pos _ _ hpos)⟩, ?_⟩, rfl, hcpu', rfl⟩
          · exact huninit
          · intro s
            show btCount (btIncr (btDecr t.time_slot_counts (prev / t.time_slot_size))
                (ts / t.time_slot_size)) s =
              (t.cpu_timestamps.set cpu (some ts)).countP (inSlot t.time_slot_size s)
            rw [btCount_btIncr _ _ _ (btDecr_pairwise _ _ hsort)]
            have hmain := hcntset s
            by_cases hs : s = prev / t.time_slot_size
            · subst hs
              rw [btCount_btDecr_self _ _ _ hsort hc]
              have hne2 : ¬ ts / t.time_slot_size = prev / t.time_slot_size :=
                fun hh => hslot (by omega)
              have hne3 : ¬ prev / t.time_slot_size = ts / t.time_slot_size := hslot
              rw [if_pos rfl, if_neg hne2] at hmain
              rw [if_neg hne3]
              have hcs : btCount t.time_slot_counts (prev / t.time_slot_size) =
                  t.cpu_timestamps.countP
                    (inSlot t.time_slot_size (prev / t.time_slot_size)) := hcnt _
              rw [btCount, hc] at hcs
              simp only [Option.getD_some] at hcs
              omega
            · rw [btCount_btDecr_ne _ _ _ hs, hcnt s]
              have hne3 : ¬ prev / t.time_slot_size = s := fun hh => hs hh.symm
              rw [if_neg hne3] at hmain
              by_cases hts : s = ts / t.time_slot_size
              · rw [if_pos hts]
                rw [if_pos hts.symm] at hmain
                omega
              · rw [if_neg hts]
                rw [if_neg (fun hh => hts hh.symm)] at hmain
                omega
        · rw [if_neg hslot]
          push_neg at hslot
          refine ⟨⟨huninit, ⟨hsort, hpos⟩, ?_⟩, rfl, hcpu', rfl⟩
          intro s
          show btCount t.time_slot_counts s =
            (t.cpu_timestamps.set cpu (some ts)).countP (inSlot t.time_slot_size s)
          rw [hcnt s]
          have hmain := hcntset s
          rw [hslot] at hmain
          omega

theorem getLast?_cons_or {α : Type} (a : α) (l : List α) :
    (a :: l).getLast? = l.getLast?.or (some a) := by
  cases l with
  | nil => rfl
  | cons b l' =>
    rw [List.getLast?_cons_cons]
    have : (b :: l').getLast?.isSome = true := by
      rw [List.getLast?_isSome]
      simp
    cases hg : (b :: l').getLast? with
    | none => rw [hg] at this; simp at this
    | some x => rfl

theorem lastTsOf_cons (c ts cpu : Nat) (rest : List (Nat × Nat)) :
    lastTsOf ((c, ts) :: rest) cpu =
      if c = cpu then (lastTsOf rest cpu).or (some ts) else lastTsOf rest cpu := by
  unfold lastTsOf
  by_cases hc : c = cpu
  · rw [if_pos hc]
    rw [show List.filter (fun u => u.1 = cpu) ((c, ts) :: rest) =
        (c, ts) :: List.filter (fun u => u.1 = cpu) rest by
      rw [List.filter_cons_of_pos]
      simp [hc]]
    rw [List.map_cons]
    exact getLast?_cons_or ts _
  · rw [if_neg hc]
    rw [List.filter_cons_of_neg]
    simp [hc]

theorem runUpdates_ok (updates : List (Nat × Nat)) :
    ∀ (t t' : MinTracker), t.Inv → t.runUpdates updates = .ok t' →
    t'.Inv ∧ t'.time_slot_size = t.time_slot_size ∧
    t'.cpu_timestamps.length = t.cpu_timestamps.length ∧
    (∀ cpu, t'.cpu_timestamps.getD cpu none =
      (lastTsOf updates cpu).or (t.cpu_timestamps.getD cpu none)) := by
  induction updates with
  | nil =>
    intro t t' hInv hok
    simp only [MinTracker.runUpdates, Except.ok.injEq] at hok
    subst hok
    refine ⟨hInv, rfl, rfl, fun cpu => ?_⟩
    simp [lastTsOf]
  | cons u rest ih =>
    obtain ⟨cpu0, ts0⟩ := u
    intro t t' hInv hok
    simp only [MinTracker.runUpdates] at hok
    cases hup : t.update cpu0 ts0 with
    | error e =>
      rw [hup] at hok
      exact absurd hok (by simp [Bind.bind, Except.bind])
    | ok t1 =>
      rw [hup] at hok
      simp only [Bind.bind, Except.bind] at hok
      obtain ⟨hInv1, hsize1, hcpu0, hset1⟩ := update_ok_inv t cpu0 ts0 t1 hInv hup
      obtain ⟨hInv', hsize', hlen', hgetD'⟩ := ih t1 t' hInv1 hok
      refine ⟨hInv', hsize'.trans hsize1, ?_, fun cpu => ?_⟩
      · rw [hlen', hset1, List.length_set]
      · rw [hgetD' cpu, hset1, lastTsOf_cons]
        by_cases hc : cpu0 = cpu
        · subst hc
          rw [if_pos rfl, getD_set_self _ _ _ _ hcpu0]
          cases lastTsOf rest cpu0 <;> simp [Option.or]
        · rw [if_neg hc, getD_set_ne _ _ _ _ _ (fun hh => hc hh.symm)]

theorem new_inv (W n : Nat) : (MinTracker.new W n).Inv := by
  refine ⟨?_, ⟨List.Pairwise.nil, by simp [MinTracker.new]⟩, fun s => ?_⟩
  · show n = (List.replicate n none).countP (fun o => o.isNone)
    induction n with
    | zero => rfl
    | succ m ihm =>
      rw [List.replicate_succ, List.countP_cons]
      simp only [Option.isNone_none, if_true]
      omega
  · show btCount [] s = (List.replicate n none).countP (inSlot W s)
    have : (List.replicate n none).countP (inSlot W s) = 0 := by
      rw [List.countP_eq_zero]
      intro a ha
      rw [List.eq_of_mem_replicate ha]
      simp [inSlot]
    rw [this]
    rfl

/-- Claim C7: for every sequence of successful `update(cpu, ts)` calls on a
`MinTracker` with `n ≥ 1` CPUs and slot width `W ≥ 1`, each CPU's stored
timestamp is the one of its last update; `get_min()` returns `none` while at
least one CPU has never reported; and once every CPU has reported it returns
`some m` with `m = (min over CPUs of its latest timestamp / W) * W`, the
minimum time-slot boundary. -/
theorem claim_C7_min_tracker (W n : Nat) (updates : List (Nat × Nat)) (t : MinTracker)
    (hW : 0 < W) (hn : 0 < n)
    (hrun : (MinTracker.new W n).runUpdates updates = .ok t) :
    (∀ cpu, cpu < n → t.cpu_timestamps.getD cpu none = lastTsOf updates cpu) ∧
    (none ∈ t.cpu_timestamps → t.get_min = none) ∧
    (¬ none ∈ t.cpu_timestamps →
      ∀ mn, (t.cpu_timestamps.map (fun o => o.getD 0)).min? = some mn →
        t.get_min = some (mn / W * W)) := by
  obtain ⟨hInv, hsize, hlen, hgetD⟩ := runUpdates_ok updates _ t (new_inv W n) hrun
  have hsizeW : t.time_slot_size = W := hsize
  have hlenn : t.cpu_timestamps.length = n := by
    rw [hlen]
    exact List.length_replicate _ _
  obtain ⟨hu, ⟨hsort, hpos⟩, hcnt⟩ := hInv
  refine ⟨fun cpu _ => ?_, fun hnone => ?_, fun hnonone mn hmn => ?_⟩
  · rw [hgetD cpu]
    have : (MinTracker.new W n).cpu_timestamps.getD cpu none = none := by
      show (List.replicate n none).getD cpu none = none
      cases hlt : (List.replicate n (none : Option Nat)).getD cpu none with
      | none => rfl
      | some x =>
        have := getD_mem_of_lt (List.replicate n (none : Option Nat)) cpu none
        by_cases hc : cpu < (List.replicate n (none : Option Nat)).length
        · have hm := this hc
          rw [hlt] at hm
          have := List.eq_of_mem_replicate hm
          exact absurd this (by simp)
        · rw [List.getD_eq_default] at hlt
          · exact absurd hlt (by simp)
          · omega
    rw [this]
    cases lastTsOf updates cpu <;> rfl
  · have hpos0 : 0 < t.uninitialized_cpus := by
      rw [hu, List.countP_pos_iff]
      exact ⟨none, hnone, rfl⟩
    unfold MinTracker.get_min
    rw [if_pos hpos0]
  · have hu0 : t.uninitialized_cpus = 0 := by
      rw [hu, List.countP_eq_zero]
      intro o ho
      cases o with
      | none => exact absurd ho hnonone
      | some x => simp
    rw [hsizeW] at hcnt
    rw [List.min?_eq_some_iff'] at hmn
    obtain ⟨hmem, hle⟩ := hmn
    obtain ⟨o, ho, hgd⟩ := List.mem_map.mp hmem
    have homn : o = some mn := by
      cases o with
      | none => exact absurd ho hnonone
      | some x =>
        simp only [Option.getD_some] at hgd
        rw [hgd]
    have hcmn : 0 < btCount t.time_slot_counts (mn / W) := by
      rw [hcnt (mn / W), List.countP_pos_iff]
      refine ⟨o, ho, ?_⟩
      rw [homn]
      simp [inSlot]
    obtain ⟨c, hc⟩ : ∃ c, btGet t.time_slot_counts (mn / W) = some c := by
      cases hg : btGet t.time_slot_counts (mn / W) with
      | none => rw [btCount, hg] at hcmn; simp at hcmn
      | some c => exact ⟨c, rfl⟩
    have hmemc : (mn / W, c) ∈ t.time_slot_counts := btGet_mem _ _ _ hc
    cases hcounts : t.time_slot_counts with
    | nil =>
      rw [hcounts] at hmemc
      exact absurd hmemc (List.not_mem_nil _)
    | cons hd tl =>
      have hdle : hd.1 ≤ mn / W := by
        rw [hcounts] at hmemc
        rcases List.mem_cons.mp hmemc with heq | hmem2
        · rw [show hd = (mn / W, c) from heq.symm]
        · rw [hcounts, List.pairwise_cons] at hsort
          exact le_of_lt (hsort.1 _ hmem2)
      have hgele : mn / W ≤ hd.1 := by
        have hhd : 0 < btCount t.time_slot_counts hd.1 := by
          rw [hcounts]
          have hp := hpos hd (by rw [hcounts]; exact List.mem_cons_self _ _)
          simp [btCount, btGet]
          omega
        rw [hcnt hd.1, List.countP_pos_iff] at hhd
        obtain ⟨o', ho', hslot'⟩ := hhd
        cases o' with
        | none => exact absurd ho' hnonone
        | some ts' =>
          simp only [inSlot, decide_eq_true_eq] at hslot'
          have : mn ≤ ts' := by
            apply hle
            exact List.mem_map.mpr ⟨some ts', ho', rfl⟩
          calc mn / W ≤ ts' / W := Nat.div_le_div_right this
            _ = hd.1 := hslot'
      have hd1 : hd.1 = mn / W := by omega
      unfold MinTracker.get_min
      rw [if_neg (by omega : ¬ t.uninitialized_cpus > 0), hcounts]
      simp only [List.head?_cons, Option.map_some']
      rw [hsizeW, hd1]

/-- Witness for C7 at the spec's E3 scenario prefix: slot width 1000000, two
CPUs, updates (0, 3000001) then (1, 3500000); both latest timestamps land in
slot 3, `get_min` = 3000000. -/
theorem claim_C7_min_tracker_witness :
    (∀ cpu, cpu < 2 →
      (MinTracker.mk 1000000 [some 3000001, some 3500000] [(3, 2)] 0).cpu_timestamps.getD
        cpu none = lastTsOf [(0, 3000001), (1, 3500000)] cpu) ∧
    (none ∈ (MinTracker.mk 1000000 [some 3000001, some 3500000] [(3, 2)] 0).cpu_timestamps →
      (MinTracker.mk 1000000 [some 3000001, some 3500000] [(3, 2)] 0).get_min = none) ∧
    (¬ none ∈ (MinTracker.mk 1000000 [some 3000001, some 3500000] [(3, 2)] 0).cpu_timestamps →
      ∀ mn, ((MinTracker.mk 1000000 [some 3000001, some 3500000]
          [(3, 2)] 0).cpu_timestamps.map (fun o => o.getD 0)).min? = some mn →
        (MinTracker.mk 1000000 [some 3000001, some 3500000] [(3, 2)] 0).get_min =
          some (mn / 1000000 * 1000000)) :=
  claim_C7_min_tracker 1000000 2 [(0, 3000001), (1, 3500000)]
    (MinTracker.mk 1000000 [some 3000001, some 3500000] [(3, 2)] 0)
    (by decide) (by decide) (by rfl)

/-! ## Claim C3 — writer quota -/

theorem arrow_flush_sum (aw : ArrowWriter) :
    aw.flush.flushed_groups.sum = aw.flushed_groups.sum + aw.in_progress := by
  unfold ArrowWriter.flush
  by_cases h : aw.in_progress = 0
  · rw [if_pos h, h]
    simp
  · rw [if_neg h]
    simp

theorem arrow_flush_in_progress (aw : ArrowWriter) : aw.flush.in_progress = 0 := by
  unfold ArrowWriter.flush
  by_cases h : aw.in_progress = 0
  · rw [if_pos h]; exact h
  · rw [if_neg h]

theorem pw_close_writer_inv (q M : Nat) (w : ParquetWriter) (aw : ArrowWriter)
    (hq : w.config.storage_quota = some q)
    (hcw : w.current_writer = some aw)
    (him : w.in_memory_size = aw.in_progress)
    (hfs : w.flushed_row_groups_size = aw.flushed_groups.sum)
    (hsb : w.store_bytes = w.closed_files_size + aw.flushed_groups.sum) :
    w.close_writer = { w with
      current_writer := none
      store_bytes := w.store_bytes + aw.in_progress
      closed_files_size := w.closed_files_size + aw.flushed_groups.sum + aw.in_progress
      flushed_row_groups_size := 0
      flushed_row_groups_count := 0
      in_memory_size := 0 } := by
  unfold ParquetWriter.close_writer
  rw [hcw]
  unfold ParquetWriter.update_current_writer_size
  simp only [arrow_flush_sum]
  simp [Nat.add_assoc]

theorem pw_create_after_close_inv (q M : Nat) (w : ParquetWriter)
    (hq : w.config.storage_quota = some q)
    (hcw : w.current_writer = none)
    (hfs : w.flushed_row_groups_size = 0)
    (him : w.in_memory_size = 0)
    (hsb : w.store_bytes = w.closed_files_size)
    (hbound : w.closed_files_size ≤ q + M) :
    ∃ w', w.create_new_file = .ok w' ∧ PWInv q M w' ∧ w'.producedBytes = w.producedBytes := by
  obtain ⟨cw, cfs, frs, frc, ims, cfg, sb⟩ := w
  simp only at hq hcw hfs him hsb hbound
  subst hcw hfs him hsb
  unfold ParquetWriter.create_new_file ParquetWriter.is_below_quota
  simp only [hq, Option.isSome_none, Bool.false_eq_true, if_false]
  by_cases hge : sb + 0 + 0 ≥ q
  · rw [if_pos (by rw [if_pos hge]; simp)]
    refine ⟨_, rfl, ?_, rfl⟩
    unfold PWInv ParquetWriter.is_below_quota ParquetWriter.producedBytes
    simp only [hq, if_pos hge]
    simp
    omega
  · rw [if_neg (by rw [if_neg hge]; simp)]
    refine ⟨_, rfl, ?_, ?_⟩
    · unfold PWInv ParquetWriter.update_current_writer_size
      by_cases hcnt : ([] : List Nat).length ≠ frc
      · simp only [if_pos hcnt]
        simp [hq]
        omega
      · simp only [if_neg hcnt]
        simp only [List.length_nil] at hcnt
        simp [hq]
        omega
    · unfold ParquetWriter.producedBytes ParquetWriter.update_current_writer_size
      by_cases hcnt : ([] : List Nat).length ≠ frc
      · simp only [if_pos hcnt]
      · simp only [if_neg hcnt]

theorem pw_close_then_create_inv (q M : Nat) (w : ParquetWriter) (hInv : PWInv q M w) :
    ∃ w', w.close_writer.create_new_file = .ok w' ∧ PWInv q M w' := by
  obtain ⟨hq, hrest⟩ := hInv
  cases hcw : w.current_writer with
  | none =>
    rw [hcw] at hrest
    obtain ⟨hbf, him, hfs, hpb⟩ := hrest
    obtain ⟨cw, cfs, frs, frc, ims, cfg, sb⟩ := w
    simp only at hq hcw him hfs hbf hpb
    subst hcw him hfs
    have hred : (ParquetWriter.mk none cfs 0 frc 0 cfg sb).close_writer =
        ⟨none, cfs, 0, 0, 0, cfg, sb⟩ := rfl
    rw [hred]
    unfold ParquetWriter.is_below_quota at hbf
    rw [hq] at hbf
    simp at hbf
    have hnb : ¬ ((ParquetWriter.mk none cfs 0 0 0 cfg sb).is_below_quota = true) := by
      unfold ParquetWriter.is_below_quota
      simp only [hq]
      simp
      omega
    refine ⟨⟨none, cfs, 0, 0, 0, cfg, sb⟩, ?_, hq, ?_⟩
    · unfold ParquetWriter.create_new_file
      rw [if_neg (by simp), if_pos hnb]
    · simp only
      refine ⟨?_, by trivial, by trivial, ?_⟩
      · unfold ParquetWriter.is_below_quota
        simp only [hq]
        simp
        omega
      · unfold ParquetWriter.producedBytes at hpb ⊢
        simpa using hpb
  | some aw =>
    simp only [hcw] at hrest
    obtain ⟨him, hfs, hfc, hsb, hT⟩ := hrest
    rw [pw_close_writer_inv q M w aw hq hcw him hfs hsb]
    obtain ⟨w', hcreate, hInv', hprod⟩ :=
      pw_create_after_close_inv q M
        { w with
          current_writer := none
          store_bytes := w.store_bytes + aw.in_progress
          closed_files_size := w.closed_files_size + aw.flushed_groups.sum + aw.in_progress
          flushed_row_groups_size := 0
          flushed_row_groups_count := 0
          in_memory_size := 0 }
        (by simpa using hq) rfl rfl rfl (by simp [hsb]) (by simp; omega)
    exact ⟨w', hcreate, hInv'⟩

theorem pw_flush_inv (q M : Nat) (w : ParquetWriter) (hInv : PWInv q M w) :
    PWInv q M w.flush := by
  obtain ⟨hq, hrest⟩ := hInv
  cases hcw : w.current_writer with
  | none =>
    have heq : w.flush = w := by
      unfold ParquetWriter.flush
      rw [hcw]
    rw [heq]
    exact ⟨hq, hrest⟩
  | some aw =>
    simp only [hcw] at hrest
    obtain ⟨him, hfs, hfc, hsb, hT⟩ := hrest
    by_cases hzero : aw.in_progress = 0
    · have hfeq : aw.flush = aw := by
        unfold ArrowWriter.flush
        rw [if_pos hzero]
      have hfl : w.flush = { w with
          current_writer := some aw
          store_bytes := w.store_bytes + aw.in_progress
          in_memory_size := aw.in_progress } := by
        unfold ParquetWriter.flush
        rw [hcw]
        unfold ParquetWriter.update_current_writer_size
        simp only [hfeq]
        rw [if_neg (by simp [hfc])]
      rw [hfl]
      refine ⟨hq, by trivial, hfs, hfc, ?_, ?_⟩
      · simp only
        omega
      · simp only
        omega
    · have hfeq : aw.flush = ⟨aw.flushed_groups ++ [aw.in_progress], 0⟩ := by
        unfold ArrowWriter.flush
        rw [if_neg hzero]
      have hfl : w.flush = { w with
          current_writer := some ⟨aw.flushed_groups ++ [aw.in_progress], 0⟩
          store_bytes := w.store_bytes + aw.in_progress
          flushed_row_groups_size := (aw.flushed_groups ++ [aw.in_progress]).sum
          flushed_row_groups_count := (aw.flushed_groups ++ [aw.in_progress]).length
          in_memory_size := 0 } := by
        unfold ParquetWriter.flush
        rw [hcw]
        unfold ParquetWriter.update_current_writer_size
        simp only [hfeq]
        rw [if_pos (by rw [hfc]; simp)]
      rw [hfl]
      refine ⟨hq, by trivial, by trivial, by trivial, ?_, ?_⟩
      · simp only [List.sum_append, List.sum_cons, List.sum_nil]
        omega
      · simp only [List.sum_append, List.sum_cons, List.sum_nil]
        omega

theorem pw_maybe_rotate_inv (q M : Nat) (w : ParquetWriter) (hInv : PWInv q M w) :
    ∃ w', w.maybe_rotate_file = .ok w' ∧ PWInv q M w' := by
  unfold ParquetWriter.maybe_rotate_file
  by_cases hlim : w.flushed_row_groups_size + w.in_memory_size ≥ w.config.file_size_limit
  · rw [if_pos hlim]
    exact pw_close_then_create_inv q M w hInv
  · rw [if_neg hlim]
    exact ⟨w, rfl, hInv⟩

theorem is_below_quota_eval (w : ParquetWriter) (q : Nat)
    (hq : w.config.storage_quota = some q) :
    w.is_below_quota =
      (if w.closed_files_size + w.flushed_row_groups_size + w.in_memory_size ≥ q then
        false else true) := by
  unfold ParquetWriter.is_below_quota
  rw [hq]

theorem pw_write_inv (q M b : Nat) (w : ParquetWriter)
    (hInv : PWInv q M w) (hb : b ≤ M) :
    ∃ w', w.write b = .ok w' ∧ PWInv q M w' := by
  obtain ⟨hq, hrest⟩ := hInv
  cases hcw : w.current_writer with
  | none =>
    rw [hcw] at hrest
    obtain ⟨hbf, him, hfs, hpb⟩ := hrest
    refine ⟨w, ?_, hq, ?_⟩
    · unfold ParquetWriter.write
      rw [if_pos (by rw [hbf]; simp)]
    · rw [hcw]
      exact ⟨hbf, him, hfs, hpb⟩
  | some aw =>
    rw [hcw] at hrest
    obtain ⟨him, hfs, hfc, hsb, hT⟩ := hrest
    have hbelow : w.is_below_quota = true := by
      rw [is_below_quota_eval w q hq]
      rw [if_neg (by omega :
        ¬ w.closed_files_size + w.flushed_row_groups_size + w.in_memory_size ≥ q)]
    have hw1 : ParquetWriter.update_current_writer_size
        { w with current_writer := some (aw.write b) } =
        { w with
          current_writer := some (aw.write b)
          in_memory_size := aw.in_progress + b } := by
      unfold ParquetWriter.update_current_writer_size ArrowWriter.write
      simp only
      rw [if_neg (by simp [hfc])]
    unfold ParquetWriter.write
    rw [if_neg (by rw [hbelow]; simp)]
    rw [hcw]
    simp only [hw1]
    by_cases hcross :
        w.closed_files_size + w.flushed_row_groups_size + (aw.in_progress + b) ≥ q
    · have hnb1 : ({ w with
          current_writer := some (aw.write b)
          in_memory_size := aw.in_progress + b } : ParquetWriter).is_below_quota = false := by
        rw [is_below_quota_eval _ q (by exact hq)]
        rw [if_pos (by simpa using hcross)]
      rw [if_pos (by rw [hnb1]; simp)]
      rw [pw_close_writer_inv q M
        { w with
          current_writer := some (aw.write b)
          in_memory_size := aw.in_progress + b } (aw.write b)
        (by exact hq) rfl rfl (by exact hfs) (by exact hsb)]
      simp only [hq]
      refine ⟨_, rfl, by exact hq, ?_⟩
      simp only
      refine ⟨?_, by trivial, by trivial, ?_⟩
      · rw [is_below_quota_eval _ q (by exact hq)]
        rw [if_pos (by simp)]
      · unfold ParquetWriter.producedBytes
        simp only
        show w.store_bytes + (aw.in_progress + b) + 0 ≤ q + M
        omega
    · have hInv1 : PWInv q M { w with
          current_writer := some (aw.write b)
          in_memory_size := aw.in_progress + b } := by
        refine ⟨by exact hq, ?_, by exact hfs, by exact hfc, by exact hsb, ?_⟩
        · rfl
        · show w.closed_files_size + aw.flushed_groups.sum + (aw.write b).in_progress < q
          unfold ArrowWriter.write
          simp only
          omega
      rw [if_neg (by
        show ¬ ¬ ({ w with
          current_writer := some (aw.write b)
          in_memory_size := aw.in_progress + b } : ParquetWriter).is_below_quota = true
        rw [is_below_quota_eval _ q (by exact hq)]
        rw [if_neg (by simpa using hcross)]
        simp)]
      by_cases hbuf : ({ w with
          current_writer := some (aw.write b)
          in_memory_size := aw.in_progress + b } : ParquetWriter).in_memory_size ≥
            w.config.buffer_size
      · rw [if_pos hbuf]
        exact pw_maybe_rotate_inv q M _ (pw_flush_inv q M _ hInv1)
      · rw [if_neg hbuf]
        exact pw_maybe_rotate_inv q M _ hInv1

theorem pw_new_inv (q M : Nat) (cfg : PWConfig) (hq : cfg.storage_quota = some q) :
    ∃ w0, ParquetWriter.new cfg = .ok w0 ∧ PWInv q M w0 := by
  unfold ParquetWriter.new ParquetWriter.create_new_file
  rw [if_neg (by simp)]
  by_cases hq0 : q = 0
  · rw [if_pos (by
      rw [is_below_quota_eval _ q (by exact hq)]
      rw [if_pos (by show (0:Nat) + 0 + 0 ≥ q; omega)]
      simp)]
    refine ⟨_, rfl, by exact hq, ?_, rfl, rfl, ?_⟩
    · rw [is_below_quota_eval _ q (by exact hq)]
      rw [if_pos (by show (0:Nat) + 0 + 0 ≥ q; omega)]
    · show (0:Nat) + 0 ≤ q + M
      omega
  · have hbt : (⟨none, 0, 0, 0, 0, cfg, 0⟩ : ParquetWriter).is_below_quota = true := by
      rw [is_below_quota_eval _ q (by exact hq)]
      rw [if_neg (by show ¬ ((0:Nat) + 0 + 0 ≥ q); omega)]
    rw [if_neg (by rw [hbt]; simp)]
    refine ⟨_, rfl, ?_⟩
    show PWInv q M ⟨some ⟨[], 0⟩, 0, 0, 0, 0, cfg, 0⟩
    refine ⟨by exact hq, rfl, rfl, rfl, rfl, ?_⟩
    show (0:Nat) + 0 + 0 < q
    omega

theorem pw_runOps_inv (q M : Nat) (ops : List WriterOp) :
    ∀ w : ParquetWriter, PWInv q M w → (∀ b, WriterOp.write b ∈ ops → b ≤ M) →
    ∃ w', w.runOps ops = .ok w' ∧ PWInv q M w' := by
  induction ops with
  | nil => exact fun w hInv _ => ⟨w, rfl, hInv⟩
  | cons op rest ih =>
    intro w hInv hb
    have hstep : ∃ w1, w.step op = .ok w1 ∧ PWInv q M w1 := by
      cases op with
      | write b => exact pw_write_inv q M b w hInv (hb b (List.mem_cons_self _ _))
      | rotate => exact pw_close_then_create_inv q M w hInv
    obtain ⟨w1, hok, hInv1⟩ := hstep
    obtain ⟨w', hok2, hInv'⟩ := ih w1 hInv1 (fun b' hm => hb b' (List.mem_cons_of_mem _ hm))
    refine ⟨w', ?_, hInv'⟩
    unfold ParquetWriter.runOps
    simp only [Bind.bind, Except.bind]
    rw [hok]
    exact hok2

/-- **C3** (corrected): with `storage_quota = some q` configured and every
record batch contributing at most `M` compressed bytes, an entire run of
writes and external rotations succeeds and produces at most `q + M` bytes in
total — the batch that crosses the quota is still fully written, so the
original bound `q` does not hold — and whenever the writer has been closed by
the quota the quota check fails and every subsequent write returns
immediately, leaving the state (hence the produced bytes) unchanged. -/
theorem claim_C3_writer_quota (q M : Nat) (cfg : PWConfig) (ops : List WriterOp)
    (hq : cfg.storage_quota = some q)
    (hM : ∀ b, WriterOp.write b ∈ ops → b ≤ M) :
    ∃ w0 wf, ParquetWriter.new cfg = .ok w0 ∧ w0.runOps ops = .ok wf ∧
      wf.producedBytes ≤ q + M ∧
      (wf.current_writer = none →
        wf.is_below_quota = false ∧ ∀ b, wf.write b = .ok wf) := by
  obtain ⟨w0, hnew, hInv0⟩ := pw_new_inv q M cfg hq
  obtain ⟨wf, hrun, hInvf⟩ := pw_runOps_inv q M ops w0 hInv0 hM
  refine ⟨w0, wf, hnew, hrun, ?_, ?_⟩
  · obtain ⟨hqf, hrest⟩ := hInvf
    cases hcw : wf.current_writer with
    | none =>
      rw [hcw] at hrest
      exact hrest.2.2.2
    | some aw =>
      rw [hcw] at hrest
      obtain ⟨him, hfs, hfc, hsb, hT⟩ := hrest
      have hpb : wf.producedBytes = wf.store_bytes + aw.in_progress := by
        unfold ParquetWriter.producedBytes
        rw [hcw]
      rw [hpb]
      omega
  · intro hnone
    obtain ⟨hqf, hrest⟩ := hInvf
    rw [hnone] at hrest
    obtain ⟨hbf, _, _, _⟩ := hrest
    refine ⟨hbf, fun b => ?_⟩
    unfold ParquetWriter.write
    rw [if_pos (by rw [hbf]; simp)]

/-- Witness for C3: quota 5000 bytes, a single 10000-byte batch. -/
theorem claim_C3_writer_quota_witness :
    ∃ w0 wf, ParquetWriter.new ⟨1000000, 10000000, some 5000⟩ = .ok w0 ∧
      w0.runOps [WriterOp.write 10000] = .ok wf ∧
      wf.producedBytes ≤ 5000 + 10000 ∧
      (wf.current_writer = none →
        wf.is_below_quota = false ∧ ∀ b, wf.write b = .ok wf) :=
  claim_C3_writer_quota 5000 10000 ⟨1000000, 10000000, some 5000⟩
    [WriterOp.write 10000] rfl (by
      intro b hb
      simp only [List.mem_singleton, WriterOp.write.injEq] at hb
      omega)

/-- Counterexample to the original C3 bound: with a 5000-byte quota a single
10000-byte batch is written in full (10000 bytes reach the store, exceeding
the quota); the writer is then closed with `closed_files_size` pinned to the
quota. -/
theorem claim_C3_counterexample :
    ((ParquetWriter.new ⟨1000000, 10000000, some 5000⟩).bind
        (fun w0 => w0.runOps [WriterOp.write 10000])) =
      .ok ⟨none, 5000, 0, 0, 0, ⟨1000000, 10000000, some 5000⟩, 10000⟩ ∧
    ¬ ((⟨none, 5000, 0, 0, 0, ⟨1000000, 10000000, some 5000⟩, 10000⟩ :
        ParquetWriter).producedBytes ≤ 5000) :=
  ⟨rfl, by decide⟩

theorem leBytes_length : ∀ (n v : Nat), (leBytes n v).length = n
  | 0, _ => rfl
  | n + 1, v => by
    show (leBytes n (v / 256)).length + 1 = n + 1
    rw [leBytes_length n (v / 256)]

theorem leVal_leBytes : ∀ (n v : Nat), leVal (leBytes n v) = v % 256 ^ n
  | 0, v => by simp [leBytes, leVal]; omega
  | n + 1, v => by
    show v % 256 + 256 * leVal (leBytes n (v / 256)) = v % 256 ^ (n + 1)
    rw [leVal_leBytes n (v / 256)]
    rw [pow_succ, Nat.mul_comm (256 ^ n) 256, Nat.mod_mul]

theorem getD_append_lt (l l' : List Nat) (d i : Nat) (h : i < l.length) :
    (l ++ l').getD i d = l.getD i d := by
  rw [List.getD_eq_getElem?_getD, List.getD_eq_getElem?_getD]
  rw [List.getElem?_append_left h]

theorem getD_append_ge (l l' : List Nat) (d i : Nat) (h : l.length ≤ i) :
    (l ++ l').getD i d = l'.getD (i - l.length) d := by
  rw [List.getD_eq_getElem?_getD, List.getD_eq_getElem?_getD]
  rw [List.getElem?_append_right h]

theorem storeBytes_get_out : ∀ (l : List Nat) (m : Nat → Nat) (a x : Nat),
    (x < a ∨ a + l.length ≤ x) → storeBytes m a l x = m x
  | [], _, _, _, _ => rfl
  | v :: vs, m, a, x, h => by
    show storeBytes (storeByte m a v) (a + 1) vs x = m x
    rw [storeBytes_get_out vs _ (a + 1) x
      (by simp only [List.length_cons] at h; omega)]
    unfold storeByte
    rw [if_neg (by simp only [List.length_cons] at h; omega)]

theorem storeBytes_get_in : ∀ (l : List Nat) (m : Nat → Nat) (a i : Nat),
    i < l.length → storeBytes m a l (a + i) = l.getD i 0
  | [], _, _, i, h => by simp at h
  | v :: vs, m, a, 0, _ => by
    show storeBytes (storeByte m a v) (a + 1) vs (a + 0) = v
    rw [storeBytes_get_out vs _ (a + 1) (a + 0) (by omega)]
    unfold storeByte
    rw [if_pos (by omega)]
  | v :: vs, m, a, i + 1, h => by
    show storeBytes (storeByte m a v) (a + 1) vs (a + (i + 1)) = vs.getD i 0
    rw [show a + (i + 1) = (a + 1) + i from by omega]
    exact storeBytes_get_in vs (storeByte m a v) (a + 1) i
      (by simp only [List.length_cons] at h; omega)

theorem readBytes_eq (m : Nat → Nat) (a n : Nat) (l : List Nat) (hn : l.length = n)
    (h : ∀ i, i < n → m (a + i) = l.getD i 0) : readBytes m a n = l := by
  unfold readBytes
  apply List.ext_getElem (by simp [hn])
  intro i h1 h2
  simp only [List.getElem_map, List.getElem_range]
  rw [h i (by simpa using h1)]
  rw [List.getD_eq_getElem?_getD, List.getElem?_eq_getElem h2]
  rfl

theorem write_ok_sample (r : PerfRing) (data : List Nat) (A : Nat)
    (hA : A = align8 (data.length + headerSize + 4))
    (hne : ¬ data.length = 0) (h1 : ¬ r.buf_mask < A)
    (h2 : ¬ r.buf_mask + 1 < r.tail + A - r.head) :
    r.write data PERF_RECORD_SAMPLE =
      .ok (((r.tail + headerSize) % (r.buf_mask + 1) + 4) % (r.buf_mask + 1),
        { r with
          mem :=
            (if ((r.tail + headerSize) % (r.buf_mask + 1) + 4) % (r.buf_mask + 1)
                + data.length ≤ r.data_len then
              storeBytes
                (storeBytes
                  (storeBytes r.mem (r.tail % (r.buf_mask + 1))
                    (leBytes 4 PERF_RECORD_SAMPLE ++ leBytes 2 0 ++ leBytes 2 A))
                  ((r.tail + headerSize) % (r.buf_mask + 1))
                  (leBytes 4 (align8 (data.length + 4))))
                (((r.tail + headerSize) % (r.buf_mask + 1) + 4) % (r.buf_mask + 1)) data
            else
              storeBytes
                (storeBytes
                  (storeBytes
                    (storeBytes r.mem (r.tail % (r.buf_mask + 1))
                      (leBytes 4 PERF_RECORD_SAMPLE ++ leBytes 2 0 ++ leBytes 2 A))
                    ((r.tail + headerSize) % (r.buf_mask + 1))
                    (leBytes 4 (align8 (data.length + 4))))
                  (((r.tail + headerSize) % (r.buf_mask + 1) + 4) % (r.buf_mask + 1))
                  (data.take (r.data_len -
                    ((r.tail + headerSize) % (r.buf_mask + 1) + 4) % (r.buf_mask + 1))))
                0
                (data.drop (r.data_len -
                  ((r.tail + headerSize) % (r.buf_mask + 1) + 4) % (r.buf_mask + 1)))),
          tail := r.tail + A }) := by
  subst hA
  conv_lhs => unfold PerfRing.write
  rw [if_neg hne]
  simp only [if_pos rfl, if_true]
  simp only [gt_iff_lt, if_neg h1, if_neg h2]

theorem add_mod_small (p t C : Nat) (ht : t < C) (h : p % C + t < C) :
    (p + t) % C = p % C + t := by
  rw [Nat.add_mod, Nat.mod_eq_of_lt ht, Nat.mod_eq_of_lt h]

theorem add_mod_wrapc (p t C : Nat) (ht : t < C) (h : C ≤ p % C + t) :
    (p + t) % C = p % C + t - C := by
  have hC : 0 < C := by omega
  rw [Nat.add_mod, Nat.mod_eq_of_lt ht, Nat.mod_eq_sub_mod h]
  exact Nat.mod_eq_of_lt (by have := Nat.mod_lt p hC; omega)

theorem peek_size_eval (r : PerfRing) (hne : ¬ r.tail = r.head) :
    r.peek_size =
      .ok (leVal (readBytes r.mem (r.head % (r.buf_mask + 1) + 6) 2) - headerSize) := by
  unfold PerfRing.peek_size
  rw [if_neg hne]

theorem peek_copy_eval (r : PerfRing) (sz : Nat) (hsz : r.peek_size = .ok sz)
    (buf_len offset : Nat) :
    r.peek_copy buf_len offset =
      (if buf_len > sz then .error .sizeExceeded
       else if ((r.head + headerSize + offset) % (r.buf_mask + 1) + buf_len - 1) %
             (r.buf_mask + 1) <
           (r.head + headerSize + offset) % (r.buf_mask + 1) then
         .ok (readBytes r.mem ((r.head + headerSize + offset) % (r.buf_mask + 1))
             (r.data_len - (r.head + headerSize + offset) % (r.buf_mask + 1)) ++
           readBytes r.mem 0
             (buf_len - (r.data_len - (r.head + headerSize + offset) % (r.buf_mask + 1))))
       else
         .ok (readBytes r.mem ((r.head + headerSize + offset) % (r.buf_mask + 1))
           buf_len)) := by
  unfold PerfRing.peek_copy
  rw [hsz]

theorem pop_eval (r : PerfRing) (hne : ¬ r.tail = r.head) :
    r.pop = .ok { r with
      head := r.head + leVal (readBytes r.mem (r.head % (r.buf_mask + 1) + 6) 2) } := by
  unfold PerfRing.pop
  rw [if_neg hne]

theorem mem_reads_contig (m0 : Nat → Nat) (bh bs bp A : Nat) (P : List Nat)
    (hsep1 : bh + 8 ≤ bs ∨ bs + 4 ≤ bh)
    (hsep2 : bh + 8 ≤ bp ∨ bp + P.length ≤ bh)
    (hsep3 : bs + 4 ≤ bp ∨ bp + P.length ≤ bs) :
    readBytes (storeBytes (storeBytes (storeBytes m0 bh
          (leBytes 4 PERF_RECORD_SAMPLE ++ leBytes 2 0 ++ leBytes 2 A)) bs
          (leBytes 4 (align8 (P.length + 4)))) bp P) (bh + 6) 2 = leBytes 2 A ∧
    readBytes (storeBytes (storeBytes (storeBytes m0 bh
          (leBytes 4 PERF_RECORD_SAMPLE ++ leBytes 2 0 ++ leBytes 2 A)) bs
          (leBytes 4 (align8 (P.length + 4)))) bp P) bp P.length = P := by
  have hLh : (leBytes 4 PERF_RECORD_SAMPLE ++ leBytes 2 0 ++ leBytes 2 A).length = 8 := by
    simp [leBytes_length]
  constructor
  · apply readBytes_eq _ _ _ _ (leBytes_length 2 A)
    intro i hi
    rw [storeBytes_get_out P _ bp (bh + 6 + i) (by omega)]
    rw [storeBytes_get_out _ _ bs (bh + 6 + i) (by rw [leBytes_length]; omega)]
    rw [show bh + 6 + i = bh + (6 + i) from by omega]
    rw [storeBytes_get_in _ _ _ _ (by rw [hLh]; omega)]
    rw [getD_append_ge _ _ _ _ (by simp only [List.length_append, leBytes_length]; omega)]
    congr 1
    simp only [List.length_append, leBytes_length]
    omega
  · apply readBytes_eq _ _ _ _ rfl
    intro i hi
    rw [storeBytes_get_in P _ bp i hi]

theorem mem_reads_wrap (m0 : Nat → Nat) (u C A : Nat) (P : List Nat)
    (hu16 : u + 16 ≤ C) (hwrap : C < u + 12 + P.length) (hPb : P.length + 20 ≤ C) :
    readBytes (storeBytes (storeBytes (storeBytes (storeBytes m0 u
          (leBytes 4 PERF_RECORD_SAMPLE ++ leBytes 2 0 ++ leBytes 2 A)) (u + 8)
          (leBytes 4 (align8 (P.length + 4)))) (u + 12) (P.take (C - (u + 12)))) 0
        (P.drop (C - (u + 12)))) (u + 6) 2 = leBytes 2 A ∧
    readBytes (storeBytes (storeBytes (storeBytes (storeBytes m0 u
          (leBytes 4 PERF_RECORD_SAMPLE ++ leBytes 2 0 ++ leBytes 2 A)) (u + 8)
          (leBytes 4 (align8 (P.length + 4)))) (u + 12) (P.take (C - (u + 12)))) 0
        (P.drop (C - (u + 12)))) (u + 12) (C - (u + 12)) = P.take (C - (u + 12)) ∧
    readBytes (storeBytes (storeBytes (storeBytes (storeBytes m0 u
          (leBytes 4 PERF_RECORD_SAMPLE ++ leBytes 2 0 ++ leBytes 2 A)) (u + 8)
          (leBytes 4 (align8 (P.length + 4)))) (u + 12) (P.take (C - (u + 12)))) 0
        (P.drop (C - (u + 12)))) 0 (P.length - (C - (u + 12))) =
      P.drop (C - (u + 12)) := by
  have hLh : (leBytes 4 PERF_RECORD_SAMPLE ++ leBytes 2 0 ++ leBytes 2 A).length = 8 := by
    simp [leBytes_length]
  have htk : (P.take (C - (u + 12))).length = C - (u + 12) := by
    rw [List.length_take, Nat.min_eq_left (by omega)]
  have hdr : (P.drop (C - (u + 12))).length = P.length - (C - (u + 12)) := by
    rw [List.length_drop]
  refine ⟨?_, ?_, ?_⟩
  · apply readBytes_eq _ _ _ _ (leBytes_length 2 A)
    intro i hi
    rw [storeBytes_get_out _ _ 0 (u + 6 + i) (by rw [hdr]; omega)]
    rw [storeBytes_get_out _ _ (u + 12) (u + 6 + i) (by rw [htk]; omega)]
    rw [storeBytes_get_out _ _ (u + 8) (u + 6 + i) (by rw [leBytes_length]; omega)]
    rw [show u + 6 + i = u + (6 + i) from by omega]
    rw [storeBytes_get_in _ _ _ _ (by rw [hLh]; omega)]
    rw [getD_append_ge _ _ _ _ (by simp only [List.length_append, leBytes_length]; omega)]
    congr 1
    simp only [List.length_append, leBytes_length]
    omega
  · apply readBytes_eq _ _ _ _ htk
    intro i hi
    rw [storeBytes_get_out _ _ 0 (u + 12 + i) (by rw [hdr]; omega)]
    rw [storeBytes_get_in _ _ (u + 12) i (by rw [htk]; omega)]
  · apply readBytes_eq _ _ _ _ hdr
    intro j hj
    rw [storeBytes_get_in _ _ 0 j (by rw [hdr]; omega)]

theorem roundtrip_finish_contig (C A p sp : Nat) (M : Nat → Nat) (P : List Nat)
    (hC : 21 ≤ C) (hPpos : 0 < P.length)
    (hA12 : P.length + 12 ≤ A) (hAsz : A ≤ 65535)
    (hsp : (p + 8 + 4) % C = sp)
    (hnw : sp + P.length - 1 < C)
    (hr6 : readBytes M (p % C + 6) 2 = leBytes 2 A)
    (hrP : readBytes M sp P.length = P) :
    (PerfRing.mk M C (C - 1) p (p + A)).peek_copy P.length 4 = .ok P ∧
    ∃ r2, (PerfRing.mk M C (C - 1) p (p + A)).pop = .ok r2 ∧ r2.head = r2.tail := by
  have hCC : C - 1 + 1 = C := by omega
  have hne : ¬ (PerfRing.mk M C (C - 1) p (p + A)).tail =
      (PerfRing.mk M C (C - 1) p (p + A)).head := by
    show ¬ p + A = p
    omega
  have hlev : leVal (leBytes 2 A) = A := by
    rw [leVal_leBytes]
    rw [show (256 : Nat) ^ 2 = 65536 from by norm_num]
    omega
  have hps : (PerfRing.mk M C (C - 1) p (p + A)).peek_size = .ok (A - 8) := by
    rw [peek_size_eval _ hne]
    dsimp only [headerSize]
    rw [hCC, hr6, hlev]
  constructor
  · rw [peek_copy_eval _ (A - 8) hps P.length 4]
    rw [if_neg (by omega : ¬ P.length > A - 8)]
    dsimp only [headerSize]
    rw [hCC, hsp]
    rw [Nat.mod_eq_of_lt hnw]
    rw [if_neg (by omega)]
    rw [hrP]
  · rw [pop_eval _ hne]
    dsimp only [headerSize]
    rw [hCC, hr6, hlev]
    exact ⟨_, rfl, rfl⟩

theorem roundtrip_finish_wrap (C A p sp : Nat) (M : Nat → Nat) (P : List Nat)
    (hC : 21 ≤ C) (hPpos : 0 < P.length) (hPle : P.length ≤ C)
    (hA12 : P.length + 12 ≤ A) (hAsz : A ≤ 65535)
    (hsp : (p + 8 + 4) % C = sp)
    (hsplt : sp < C) (hw1 : C ≤ sp + P.length - 1)
    (hr1 : readBytes M sp (C - sp) = P.take (C - sp))
    (hr2 : readBytes M 0 (P.length - (C - sp)) = P.drop (C - sp))
    (hr6 : readBytes M (p % C + 6) 2 = leBytes 2 A) :
    (PerfRing.mk M C (C - 1) p (p + A)).peek_copy P.length 4 = .ok P ∧
    ∃ r2, (PerfRing.mk M C (C - 1) p (p + A)).pop = .ok r2 ∧ r2.head = r2.tail := by
  have hCC : C - 1 + 1 = C := by omega
  have hne : ¬ (PerfRing.mk M C (C - 1) p (p + A)).tail =
      (PerfRing.mk M C (C - 1) p (p + A)).head := by
    show ¬ p + A = p
    omega
  have hlev : leVal (leBytes 2 A) = A := by
    rw [leVal_leBytes]
    rw [show (256 : Nat) ^ 2 = 65536 from by norm_num]
    omega
  have hps : (PerfRing.mk M C (C - 1) p (p + A)).peek_size = .ok (A - 8) := by
    rw [peek_size_eval _ hne]
    dsimp only [headerSize]
    rw [hCC, hr6, hlev]
  constructor
  · rw [peek_copy_eval _ (A - 8) hps P.length 4]
    rw [if_neg (by omega : ¬ P.length > A - 8)]
    dsimp only [headerSize]
    rw [hCC, hsp]
    rw [Nat.mod_eq_sub_mod hw1]
    rw [Nat.mod_eq_of_lt (by omega)]
    rw [if_pos (by omega)]
    rw [hr1, hr2]
    rw [List.take_append_drop]
  · rw [pop_eval _ hne]
    dsimp only [headerSize]
    rw [hCC, hr6, hlev]
    exact ⟨_, rfl, rfl⟩

/-- **C1** (corrected): the claimed round-trip holds only up to alignment
slack: for every nonempty payload `P` with `P.length + 20 ≤ buf_mask + 1`
(the original bound `|P| ≤ buf_mask − header_size − 4` admits payloads whose
8-byte-aligned record length reaches the capacity and is rejected with
`CannotFit`) and `P.length + 19 ≤ 65535` (the record length must fit the
u16 `size` header field), writing `P` as a sample record at any 8-aligned
position of an empty power-of-two ring and reading it back with
`peek_copy` of `P.length` bytes at offset 4 returns `P` bitwise identical —
including when the physical copy wraps around the end of the buffer — and
`pop` then consumes exactly the record, leaving the ring empty. -/
theorem claim_C1_ring_roundtrip (k p : Nat) (P : List Nat) (m0 : Nat → Nat)
    (hk : 3 ≤ k) (hp8 : p % 8 = 0) (hPne : P ≠ [])
    (hfit : P.length + 20 ≤ 2 ^ k) (hsz : P.length + 19 ≤ 65535) :
    ∃ off r1,
      (PerfRing.mk m0 (2 ^ k) (2 ^ k - 1) p p).write P PERF_RECORD_SAMPLE =
        .ok (off, r1) ∧
      r1.peek_copy P.length 4 = .ok P ∧
      ∃ r2, r1.pop = .ok r2 ∧ r2.head = r2.tail := by
  set C := 2 ^ k with hCdef
  have hPpos : 0 < P.length := List.length_pos.mpr hPne
  have hC21 : 21 ≤ C := by omega
  have hdvd : (8 : Nat) ∣ C := by
    have h3 : (2 : Nat) ^ 3 ∣ 2 ^ k := pow_dvd_pow 2 hk
    rw [hCdef]
    exact (by norm_num : (8 : Nat) = 2 ^ 3) ▸ h3
  obtain ⟨c8, hc8⟩ := hdvd
  have hu8 : p % C % 8 = 0 := by
    rw [Nat.mod_mod_of_dvd p ⟨c8, hc8⟩]
    exact hp8
  have hult : p % C < C := Nat.mod_lt _ (by omega)
  set A := align8 (P.length + headerSize + 4) with hAdef
  have hAeq : A = (P.length + 19) / 8 * 8 := by
    rw [hAdef]
    simp only [align8, headerSize]
  have hA12 : P.length + 12 ≤ A := by rw [hAeq]; omega
  have hA19 : A ≤ P.length + 19 := by rw [hAeq]; omega
  have hAsz : A ≤ 65535 := by omega
  have hne : ¬ P.length = 0 := by omega
  have hw := write_ok_sample (PerfRing.mk m0 C (C - 1) p p) P A hAdef hne
    (by show ¬ C - 1 < A; omega) (by show ¬ C - 1 + 1 < p + A - p; omega)
  dsimp only at hw
  simp only [headerSize] at hw
  rw [show C - 1 + 1 = C from by omega] at hw
  by_cases hS3 : p % C = C - 8
  · -- header at end of buffer: size field and payload land at the start
    have hm8 : (p + 8) % C = 0 := by
      rw [add_mod_wrapc p 8 C (by omega) (by omega)]
      omega
    rw [hm8] at hw
    rw [show ((0 : Nat) + 4) % C = 0 + 4 from Nat.mod_eq_of_lt (by omega)] at hw
    rw [show (0 : Nat) + 4 = 4 from rfl] at hw
    rw [if_pos (by omega : 4 + P.length ≤ C)] at hw
    obtain ⟨hr6, hrP⟩ := mem_reads_contig m0 (p % C) 0 4 A P
      (by omega) (by omega) (by omega)
    have hsp : (p + 8 + 4) % C = 4 := by
      rw [show p + 8 + 4 = p + 12 from by omega]
      rw [add_mod_wrapc p 12 C (by omega) (by omega)]
      omega
    exact ⟨4, _, hw, roundtrip_finish_contig C A p 4 _ P hC21 hPpos hA12 hAsz hsp
      (by omega) hr6 hrP⟩
  · have hu16 : p % C + 16 ≤ C := by omega
    have hm8 : (p + 8) % C = p % C + 8 := add_mod_small p 8 C (by omega) (by omega)
    rw [hm8] at hw
    rw [show (p % C + 8 + 4) % C = p % C + 12 from by
      rw [show p % C + 8 + 4 = p % C + 12 from by omega]
      exact Nat.mod_eq_of_lt (by omega)] at hw
    have hsp : (p + 8 + 4) % C = p % C + 12 := by
      rw [show p + 8 + 4 = p + 12 from by omega]
      exact add_mod_small p 12 C (by omega) (by omega)
    by_cases hS2 : C < p % C + 12 + P.length
    · -- payload wraps around the end of the buffer
      rw [if_neg (by omega : ¬ p % C + 12 + P.length ≤ C)] at hw
      obtain ⟨hr6, hr1, hr2⟩ := mem_reads_wrap m0 (p % C) C A P hu16 hS2 (by omega)
      exact ⟨p % C + 12, _, hw, roundtrip_finish_wrap C A p (p % C + 12) _ P hC21
        hPpos (by omega) hA12 hAsz hsp (by omega) (by omega) hr1 hr2 hr6⟩
    · -- fully contiguous record
      rw [if_pos (by omega : p % C + 12 + P.length ≤ C)] at hw
      obtain ⟨hr6, hrP⟩ := mem_reads_contig m0 (p % C) (p % C + 8) (p % C + 12) A P
        (by omega) (by omega) (by omega)
      exact ⟨p % C + 12, _, hw, roundtrip_finish_contig C A p (p % C + 12) _ P hC21
        hPpos hA12 hAsz hsp (by omega) hr6 hrP⟩

/-- Witness for C1: a 3-byte payload written at position 16 of a 64-byte
ring round-trips. -/
theorem claim_C1_witness :
    ∃ off r1,
      (PerfRing.mk (fun _ => 0) (2 ^ 6) (2 ^ 6 - 1) 16 16).write [1, 2, 3]
        PERF_RECORD_SAMPLE = .ok (off, r1) ∧
      r1.peek_copy 3 4 = .ok [1, 2, 3] ∧
      ∃ r2, r1.pop = .ok r2 ∧ r2.head = r2.tail :=
  claim_C1_ring_roundtrip 6 16 [1, 2, 3] (fun _ => 0) (by decide) (by decide)
    (by decide) (by decide) (by decide)

/-- Counterexample to the original C1 bound: a 51-byte payload satisfies
`|P| ≤ buf_mask − header_size − 4` (51 ≤ 64 − 1 − 8 − 4 = 51) on a 64-byte
ring, but its aligned record length is `align8 (51 + 12) = 64 > buf_mask`,
so `write` fails with `CannotFit` instead of round-tripping. -/
theorem claim_C1_counterexample :
    (List.replicate 51 7).length ≤ 64 - 1 - 8 - 4 ∧
    (PerfRing.mk (fun _ => 0) 64 (64 - 1) 0 0).write (List.replicate 51 7)
      PERF_RECORD_SAMPLE = .error .cannotFit :=
  ⟨by decide, rfl⟩

theorem hget_set_self (d : List PerfEntry) (i : Nat) (v : PerfEntry) (h : i < d.length) :
    hget (d.set i v) i = v :=
  getD_set_self d i v _ h

theorem hget_set_ne (d : List PerfEntry) (i j : Nat) (v : PerfEntry) (h : j ≠ i) :
    hget (d.set i v) j = hget d j :=
  getD_set_ne d i j v _ h

theorem hswap_length (d : List PerfEntry) (i j : Nat) :
    (hswap d i j).length = d.length := by
  simp [hswap]

theorem hget_hswap_left (d : List PerfEntry) (i j : Nat) (hi : i < d.length) (hj : j < d.length)
    (hne : i ≠ j) : hget (hswap d i j) i = hget d j := by
  unfold hswap
  rw [hget_set_ne _ _ _ _ hne, hget_set_self _ _ _ hi]

theorem hget_hswap_right (d : List PerfEntry) (i j : Nat) (hi : i < d.length)
    (hj : j < d.length) : hget (hswap d i j) j = hget d i := by
  unfold hswap
  rw [hget_set_self _ _ _ (by simpa using hj)]

theorem hget_hswap_other (d : List PerfEntry) (i j x : Nat) (hxi : x ≠ i) (hxj : x ≠ j) :
    hget (hswap d i j) x = hget d x := by
  unfold hswap
  rw [hget_set_ne _ _ _ _ hxj, hget_set_ne _ _ _ _ hxi]

theorem getD_cons_set_perm (a dflt : PerfEntry) :
    ∀ (t : List PerfEntry) (k : Nat), k < t.length →
      (t.getD k dflt :: t.set k a).Perm (a :: t)
  | b :: t', 0, _ => by
    simp only [List.getD_cons_zero, List.set_cons_zero]
    exact List.Perm.swap a b t'
  | b :: t', k + 1, h => by
    simp only [List.getD_cons_succ, List.set_cons_succ]
    exact (List.Perm.swap b (t'.getD k dflt) _).trans
      ((List.Perm.cons b (getD_cons_set_perm a dflt t' k (by simpa using h))).trans
        (List.Perm.swap a b t'))

theorem set_getD_self : ∀ (l : List PerfEntry) (i : Nat) (dflt : PerfEntry),
    l.set i (l.getD i dflt) = l
  | [], _, _ => rfl
  | _ :: _, 0, _ => rfl
  | a :: t, k + 1, dflt => by
    simp only [List.getD_cons_succ, List.set_cons_succ]
    rw [set_getD_self t k dflt]

theorem hswap_perm : ∀ (d : List PerfEntry) (i j : Nat), i < d.length → j < d.length →
    (hswap d i j).Perm d
  | [], i, _, hi, _ => by simp at hi
  | a :: t, 0, 0, _, _ => by
    unfold hswap hget
    simp only [List.getD_cons_zero, List.set_cons_zero]
    exact List.Perm.refl _
  | a :: t, 0, k + 1, _, hj => by
    unfold hswap hget
    simp only [List.getD_cons_zero, List.getD_cons_succ, List.set_cons_zero,
      List.set_cons_succ]
    exact getD_cons_set_perm a ⟨0, 0⟩ t k (by simpa using hj)
  | a :: t, m + 1, 0, hi, _ => by
    unfold hswap hget
    simp only [List.getD_cons_zero, List.getD_cons_succ, List.set_cons_zero,
      List.set_cons_succ]
    exact getD_cons_set_perm a ⟨0, 0⟩ t m (by simpa using hi)
  | a :: t, m + 1, k + 1, hi, hj => by
    unfold hswap hget
    simp only [List.getD_cons_succ, List.set_cons_succ]
    exact List.Perm.cons a
      (hswap_perm t m k (by simpa using hi) (by simpa using hj))

theorem heapInv_root_le (d : List PerfEntry) (h : heapInv d) :
    ∀ j, j < d.length → (hget d 0).timestamp ≤ (hget d j).timestamp := by
  intro j
  induction j using Nat.strong_induction_on with
  | _ j ih =>
    intro hj
    cases Nat.eq_zero_or_pos j with
    | inl h0 => rw [h0]
    | inr hpos =>
      exact le_trans (ih ((j - 1) / 2) (by omega) (by omega)) (h j hpos hj)

theorem heapInv_le_mem (d : List PerfEntry) (h : heapInv d) (x : PerfEntry) (hx : x ∈ d) :
    (hget d 0).timestamp ≤ x.timestamp := by
  obtain ⟨i, hi, rfl⟩ := List.mem_iff_getElem.mp hx
  have : hget d i = d[i] := List.getD_eq_getElem d _ hi
  rw [← this]
  exact heapInv_root_le d h i hi

theorem entryLe_true (a b : PerfEntry) (h : entryLe a b = true) :
    b.timestamp ≤ a.timestamp := by
  simpa [entryLe] using h

theorem entryLe_false (a b : PerfEntry) (h : ¬ entryLe a b = true) :
    a.timestamp < b.timestamp := by
  simp [entryLe] at h
  omega

theorem siftUp_spec : ∀ (fuel : Nat) (d : List PerfEntry) (pos : Nat),
    pos < fuel → pos < d.length → UpInv d pos →
    heapInv (siftUpF fuel d 0 pos) ∧ (siftUpF fuel d 0 pos).Perm d ∧
      (siftUpF fuel d 0 pos).length = d.length
  | 0, _, _, hf, _, _ => by omega
  | fuel + 1, d, pos, hf, hlen, hInv => by
    obtain ⟨hA, hB⟩ := hInv
    show heapInv (siftUpF (fuel + 1) d 0 pos) ∧ _ ∧ _
    unfold siftUpF
    by_cases h0 : 0 < pos
    · rw [if_pos h0]
      by_cases hle : entryLe (hget d pos) (hget d ((pos - 1) / 2)) = true
      · rw [if_pos hle]
        refine ⟨?_, List.Perm.refl _, rfl⟩
        intro j hj0 hjlen
        by_cases hjp : j = pos
        · subst hjp
          exact entryLe_true _ _ hle
        · exact hA j hj0 hjlen hjp
      · rw [if_neg hle]
        have hlt := entryLe_false _ _ hle
        have hpar : (pos - 1) / 2 < pos := by omega
        have hparlen : (pos - 1) / 2 < d.length := by omega
        have hswlen : (hswap d pos ((pos - 1) / 2)).length = d.length :=
          hswap_length d pos ((pos - 1) / 2)
        have hgl : hget (hswap d pos ((pos - 1) / 2)) pos = hget d ((pos - 1) / 2) :=
          hget_hswap_left d pos ((pos - 1) / 2) hlen hparlen (by omega)
        have hgr : hget (hswap d pos ((pos - 1) / 2)) ((pos - 1) / 2) = hget d pos :=
          hget_hswap_right d pos ((pos - 1) / 2) hlen hparlen
        have hgo : ∀ x, x ≠ pos → x ≠ (pos - 1) / 2 →
            hget (hswap d pos ((pos - 1) / 2)) x = hget d x :=
          fun x hx1 hx2 => hget_hswap_other d pos ((pos - 1) / 2) x hx1 hx2
        have hInv' : UpInv (hswap d pos ((pos - 1) / 2)) ((pos - 1) / 2) := by
          constructor
          · intro j hj0 hjlen hjpar
            rw [hswlen] at hjlen
            by_cases hjp : j = pos
            · rw [hjp, hgl, hgr]
              omega
            · rw [hgo j hjp hjpar]
              by_cases hpp : (j - 1) / 2 = pos
              · rw [hpp, hgl]
                exact hB j hj0 hjlen hpp h0
              · by_cases hpq : (j - 1) / 2 = (pos - 1) / 2
                · rw [hpq, hgr]
                  have := hA j hj0 hjlen hjp
                  rw [hpq] at this
                  omega
                · rw [hgo _ hpp hpq]
                  exact hA j hj0 hjlen hjp
          · intro c hc0 hclen hcpar hq0
            rw [hswlen] at hclen
            have hppne1 : ((pos - 1) / 2 - 1) / 2 ≠ pos := by omega
            have hppne2 : ((pos - 1) / 2 - 1) / 2 ≠ (pos - 1) / 2 := by omega
            rw [hgo _ hppne1 hppne2]
            by_cases hcp : c = pos
            · rw [hcp, hgl]
              exact hA ((pos - 1) / 2) hq0 hparlen (by omega)
            · have hcq : c ≠ (pos - 1) / 2 := by omega
              rw [hgo c hcp hcq]
              have h1 := hA ((pos - 1) / 2) hq0 hparlen (by omega)
              have h2 := hA c hc0 hclen hcp
              rw [hcpar] at h2
              omega
        obtain ⟨ha, hb, hc⟩ := siftUp_spec fuel (hswap d pos ((pos - 1) / 2))
          ((pos - 1) / 2) (by omega) (by omega) hInv'
        exact ⟨ha, hb.trans (hswap_perm d pos ((pos - 1) / 2) hlen hparlen),
          by rw [hc, hswlen]⟩
    · rw [if_neg h0]
      refine ⟨?_, List.Perm.refl _, rfl⟩
      intro j hj0 hjlen
      exact hA j hj0 hjlen (by omega)

theorem downStep (d : List PerfEntry) (endd pos c : Nat) (heq : endd = d.length)
    (hpos : pos < endd) (hc : c < endd) (hcform : c = 2 * pos + 1 ∨ c = 2 * pos + 2)
    (hmin1 : (hget d c).timestamp ≤ (hget d (2 * pos + 1)).timestamp)
    (hmin2 : 2 * pos + 2 < endd → (hget d c).timestamp ≤ (hget d (2 * pos + 2)).timestamp)
    (hD : DownInv d pos) : DownInv (hswap d pos c) c := by
  obtain ⟨hA, hB⟩ := hD
  have hplen : pos < d.length := by omega
  have hclen : c < d.length := by omega
  have hpc : pos ≠ c := by omega
  have hgl : hget (hswap d pos c) pos = hget d c := hget_hswap_left d pos c hplen hclen hpc
  have hgr : hget (hswap d pos c) c = hget d pos := hget_hswap_right d pos c hplen hclen
  have hgo : ∀ x, x ≠ pos → x ≠ c → hget (hswap d pos c) x = hget d x :=
    fun x hx1 hx2 => hget_hswap_other d pos c x hx1 hx2
  have hcpar : (c - 1) / 2 = pos := by omega
  constructor
  · intro j hj0 hjlen hjc hjparc
    rw [hswap_length] at hjlen
    by_cases hjp : j = pos
    · have hp0 : 0 < pos := by omega
      have hpar1 : (pos - 1) / 2 ≠ pos := by omega
      have hpar2 : (pos - 1) / 2 ≠ c := by omega
      rw [hjp, hgl, hgo _ hpar1 hpar2]
      exact hB c (by omega) hclen hcpar hp0
    · by_cases hjpar : (j - 1) / 2 = pos
      · have hj12 : j = 2 * pos + 1 ∨ j = 2 * pos + 2 := by omega
        rw [hjpar, hgl, hgo j hjp hjc]
        rcases hj12 with hj1 | hj2
        · rw [hj1]; exact hmin1
        · rw [hj2]; exact hmin2 (by omega)
      · rw [hgo j hjp hjc, hgo _ hjpar hjparc]
        exact hA j hj0 hjlen hjp hjpar
  · intro cc hcc0 hcclen hccpar hc0
    rw [hswap_length] at hcclen
    have hccp : cc ≠ pos := by omega
    have hccc : cc ≠ c := by omega
    rw [hcpar, hgl, hgo cc hccp hccc]
    have h5 := hA cc hcc0 hcclen hccp (by omega)
    rw [hccpar] at h5
    exact h5

theorem siftDown_spec : ∀ (fuel : Nat) (d : List PerfEntry) (endd pos : Nat),
    endd = d.length → endd ≤ fuel + pos → pos < endd → DownInv d pos →
    UpInv (siftDownF fuel d endd pos).1 (siftDownF fuel d endd pos).2 ∧
    (siftDownF fuel d endd pos).1.Perm d ∧
    (siftDownF fuel d endd pos).1.length = endd ∧
    (siftDownF fuel d endd pos).2 < endd
  | 0, _, _, _, heq, hfuel, hpos, _ => by omega
  | fuel + 1, d, endd, pos, heq, hfuel, hpos, hD => by
    unfold siftDownF
    by_cases h2 : 2 * pos + 1 ≤ endd - 2
    · rw [if_pos h2]
      have hc1len : 2 * pos + 1 < d.length := by omega
      have hc2len : 2 * pos + 2 < d.length := by omega
      by_cases hsel : entryLe (hget d (2 * pos + 1)) (hget d (2 * pos + 1 + 1)) = true
      · rw [if_pos hsel]
        have hmin := entryLe_true _ _ hsel
        have hstep : DownInv (hswap d pos (2 * pos + 1 + 1)) (2 * pos + 1 + 1) :=
          downStep d endd pos (2 * pos + 1 + 1) heq hpos (by omega) (by omega)
            hmin (fun _ => by
              rw [show 2 * pos + 1 + 1 = 2 * pos + 2 from by omega]) hD
        obtain ⟨ha, hb, hc, hd2⟩ := siftDown_spec fuel (hswap d pos (2 * pos + 1 + 1))
          endd (2 * pos + 1 + 1) (by rw [hswap_length]; omega) (by omega) (by omega) hstep
        exact ⟨ha, hb.trans (hswap_perm d pos (2 * pos + 1 + 1) (by omega) (by omega)),
          hc, hd2⟩
      · rw [if_neg hsel]
        have hmin := entryLe_false _ _ hsel
        have hstep : DownInv (hswap d pos (2 * pos + 1)) (2 * pos + 1) :=
          downStep d endd pos (2 * pos + 1) heq hpos (by omega) (by omega)
            (le_refl _) (fun _ => by
              rw [show 2 * pos + 1 + 1 = 2 * pos + 2 from by omega] at hmin
              omega) hD
        obtain ⟨ha, hb, hc, hd2⟩ := siftDown_spec fuel (hswap d pos (2 * pos + 1))
          endd (2 * pos + 1) (by rw [hswap_length]; omega) (by omega) (by omega) hstep
        exact ⟨ha, hb.trans (hswap_perm d pos (2 * pos + 1) (by omega) (by omega)),
          hc, hd2⟩
    · rw [if_neg h2]
      obtain ⟨hA, hB⟩ := hD
      by_cases h1 : 2 * pos + 1 = endd - 1
      · rw [if_pos h1]
        dsimp only
        have hclen : 2 * pos + 1 < d.length := by omega
        have hplen : pos < d.length := by omega
        have hgl : hget (hswap d pos (2 * pos + 1)) pos = hget d (2 * pos + 1) :=
          hget_hswap_left d pos (2 * pos + 1) hplen hclen (by omega)
        have hgo : ∀ x, x ≠ pos → x ≠ 2 * pos + 1 →
            hget (hswap d pos (2 * pos + 1)) x = hget d x :=
          fun x hx1 hx2 => hget_hswap_other d pos (2 * pos + 1) x hx1 hx2
        refine ⟨⟨?_, ?_⟩, hswap_perm d pos (2 * pos + 1) hplen hclen,
          by rw [hswap_length]; omega, by omega⟩
        · intro j hj0 hjlen hjc
          rw [hswap_length] at hjlen
          by_cases hjp : j = pos
          · have hp0 : 0 < pos := by omega
            have hpar1 : (pos - 1) / 2 ≠ pos := by omega
            have hpar2 : (pos - 1) / 2 ≠ 2 * pos + 1 := by omega
            rw [hjp, hgl, hgo _ hpar1 hpar2]
            exact hB (2 * pos + 1) (by omega) hclen (by omega) hp0
          · have hjpar : (j - 1) / 2 ≠ pos := by omega
            have hjparc : (j - 1) / 2 ≠ 2 * pos + 1 := by omega
            rw [hgo j hjp hjc, hgo _ hjpar hjparc]
            exact hA j hj0 hjlen hjp hjpar
        · intro cc hcc0 hcclen hccpar _
          rw [hswap_length] at hcclen
          omega
      · rw [if_neg h1]
        dsimp only
        refine ⟨⟨?_, hB⟩, List.Perm.refl _, by omega, hpos⟩
        intro j hj0 hjlen hjp
        have hjpar : (j - 1) / 2 ≠ pos := by omega
        exact hA j hj0 hjlen hjp hjpar

theorem hget_append_lt (d l : List PerfEntry) (i : Nat) (h : i < d.length) :
    hget (d ++ l) i = hget d i := by
  unfold hget
  rw [List.getD_eq_getElem?_getD, List.getD_eq_getElem?_getD, List.getElem?_append_left h]

theorem hget_append_at (d : List PerfEntry) (x : PerfEntry) :
    hget (d ++ [x]) d.length = x := by
  unfold hget
  rw [List.getD_eq_getElem?_getD, List.getElem?_append_right (le_refl _)]
  simp

theorem heapPush_spec (d : List PerfEntry) (item : PerfEntry) (h : heapInv d) :
    heapInv (heapPush d item) ∧ (heapPush d item).Perm (d ++ [item]) ∧
      (heapPush d item).length = d.length + 1 := by
  have hUp : UpInv (d ++ [item]) d.length := by
    constructor
    · intro j hj0 hjlen hjp
      rw [List.length_append, List.length_cons, List.length_nil] at hjlen
      have hjd : j < d.length := by omega
      rw [hget_append_lt _ _ _ hjd, hget_append_lt _ _ _ (by omega)]
      exact h j hj0 hjd
    · intro c hc0 hclen hcpar _
      rw [List.length_append, List.length_cons, List.length_nil] at hclen
      omega
  obtain ⟨ha, hb, hc⟩ := siftUp_spec (d.length + 1) (d ++ [item]) d.length
    (by omega) (by simp) hUp
  exact ⟨ha, hb, by unfold heapPush heapSiftUp; rw [hc]; simp⟩

theorem heapSiftDownToBottom_spec (d : List PerfEntry) (hne : 0 < d.length)
    (hD : DownInv d 0) :
    heapInv (heapSiftDownToBottom d 0) ∧ (heapSiftDownToBottom d 0).Perm d ∧
      (heapSiftDownToBottom d 0).length = d.length := by
  unfold heapSiftDownToBottom
  obtain ⟨ha, hb, hc, hd2⟩ := siftDown_spec (d.length + 1) d d.length 0 rfl
    (by omega) hne hD
  obtain ⟨he, hf, hg⟩ := siftUp_spec ((siftDownF (d.length + 1) d d.length 0).2 + 1)
    (siftDownF (d.length + 1) d d.length 0).1 (siftDownF (d.length + 1) d d.length 0).2
    (by omega) (by omega) ha
  exact ⟨he, hf.trans hb, by rw [hg, hc]⟩

theorem hget_dropLast (d : List PerfEntry) (i : Nat) (h : i < d.length - 1) :
    hget d.dropLast i = hget d i := by
  unfold hget
  rw [List.getD_eq_getElem?_getD, List.getD_eq_getElem?_getD, List.dropLast_eq_take,
    List.getElem?_take]
  rw [if_pos (by omega)]

theorem hget_cons_succ (y : PerfEntry) (l : List PerfEntry) (j : Nat) :
    hget (y :: l) (j + 1) = hget l j := rfl

theorem heapPop_spec (d : List PerfEntry) (h : heapInv d) (hne : d ≠ []) :
    ∃ d2, heapPop d = some (hget d 0, d2) ∧ heapInv d2 ∧
      d.Perm (hget d 0 :: d2) ∧ d2.length = d.length - 1 := by
  cases d with
  | nil => exact absurd rfl hne
  | cons a t =>
    cases t with
    | nil =>
      refine ⟨[], rfl, ?_, List.Perm.refl _, rfl⟩
      intro j hj0 hjlen
      simp at hjlen
    | cons b t' =>
      have hdne : a :: b :: t' ≠ [] := by simp
      have hne2 : b :: t' ≠ [] := by simp
      have hlast : (a :: b :: t').getLast? = some ((a :: b :: t').getLast hdne) :=
        List.getLast?_eq_getLast _ hdne
      have hL2 : (a :: b :: t').getLast hdne = (b :: t').getLast hne2 :=
        List.getLast_cons hne2
      generalize hLdef : (a :: b :: t').getLast hdne = L at hlast hL2
      have hdl : (a :: b :: t').dropLast = a :: (b :: t').dropLast := by simp
      set D := (b :: t').dropLast with hD
      have hDlen : D.length = t'.length := by simp [hD]
      have hgetDL : ∀ j, j < t'.length + 1 → hget (a :: D) j = hget (a :: b :: t') j := by
        intro j hj
        rw [← hdl]
        exact hget_dropLast (a :: b :: t') j (by simp; omega)
      have hDownInv : DownInv (L :: D) 0 := by
        constructor
        · intro j hj0 hjlen hjp hjpar
          simp only [List.length_cons, hDlen] at hjlen
          obtain ⟨j', rfl⟩ : ∃ j', j = j' + 1 := ⟨j - 1, by omega⟩
          obtain ⟨p', hp'⟩ : ∃ p', (j' + 1 - 1) / 2 = p' + 1 := ⟨(j' + 1 - 1) / 2 - 1, by omega⟩
          rw [hp', hget_cons_succ, hget_cons_succ]
          rw [← hget_cons_succ a D j', ← hget_cons_succ a D p']
          rw [hgetDL (j' + 1) (by omega), hgetDL (p' + 1) (by omega)]
          rw [← hp']
          exact h (j' + 1) hj0 (by simp; omega)
        · intro c hc0 hclen hcpar hq0
          omega
      obtain ⟨hInv2, hPerm2, hLen2⟩ := heapSiftDownToBottom_spec (L :: D) (by simp) hDownInv
      refine ⟨heapSiftDownToBottom (L :: D) 0, ?_, hInv2, ?_, ?_⟩
      · unfold heapPop
        rw [hlast]
        show (if (a :: b :: t').dropLast.isEmpty = true then
            some (L, (a :: b :: t').dropLast)
          else some (hget (a :: b :: t').dropLast 0,
            heapSiftDownToBottom ((a :: b :: t').dropLast.set 0 L) 0)) =
          some (hget (a :: b :: t') 0, heapSiftDownToBottom (L :: D) 0)
        rw [hdl]
        rw [if_neg (by simp)]
        rfl
      · show (a :: b :: t').Perm (a :: heapSiftDownToBottom (L :: D) 0)
        refine List.Perm.cons a ?_
        have hDL : D ++ [L] = b :: t' := by
          rw [hL2, hD]
          exact List.dropLast_append_getLast hne2
        exact ((hPerm2.trans ((List.perm_append_singleton L D).symm)).trans
          (List.Perm.of_eq hDL)).symm
      · rw [hLen2]
        simp [hDlen]

theorem headEntriesAux_append : ∀ (l1 l2 : List RecordRing) (k : Nat),
    headEntriesAux k (l1 ++ l2) = headEntriesAux k l1 ++ headEntriesAux (k + l1.length) l2
  | [], l2, k => by simp [headEntriesAux]
  | r :: l1', l2, k => by
    show headEntriesAux k (r :: (l1' ++ l2)) = _
    cases hh : r.records.head? with
    | some rec =>
      simp only [headEntriesAux, hh]
      rw [headEntriesAux_append l1' l2 (k + 1)]
      simp only [List.length_cons, List.cons_append]
      rw [show k + 1 + l1'.length = k + (l1'.length + 1) from by omega]
    | none =>
      simp only [headEntriesAux, hh]
      rw [headEntriesAux_append l1' l2 (k + 1)]
      simp only [List.length_cons]
      rw [show k + 1 + l1'.length = k + (l1'.length + 1) from by omega]

theorem headEntriesAux_index_ge : ∀ (l : List RecordRing) (k : Nat) (x : PerfEntry),
    x ∈ headEntriesAux k l → k ≤ x.ring_index
  | [], _, _, hx => by simp [headEntriesAux] at hx
  | r :: l', k, x, hx => by
    revert hx
    show x ∈ headEntriesAux k (r :: l') → _
    cases hh : r.records.head? with
    | some rec =>
      simp only [headEntriesAux, hh, List.mem_cons]
      rintro (rfl | hx)
      · exact le_refl k
      · have := headEntriesAux_index_ge l' (k + 1) x hx
        omega
    | none =>
      simp only [headEntriesAux, hh]
      intro hx
      have := headEntriesAux_index_ge l' (k + 1) x hx
      omega

theorem headEntriesAux_lookup : ∀ (l : List RecordRing) (k : Nat) (e : PerfEntry),
    e ∈ headEntriesAux k l →
    ∃ j, j < l.length ∧ e.ring_index = k + j ∧
      ∃ rec, (l.getD j ⟨[]⟩).records.head? = some rec ∧ e.timestamp = recordKey rec
  | [], _, _, hx => by simp [headEntriesAux] at hx
  | r :: l', k, e, hx => by
    revert hx
    show e ∈ headEntriesAux k (r :: l') → _
    cases hh : r.records.head? with
    | some rec =>
      simp only [headEntriesAux, hh, List.mem_cons]
      rintro (rfl | hx)
      · exact ⟨0, by simp, by simp, rec, hh, rfl⟩
      · obtain ⟨j, hj, hidx, rec', hrec', hts⟩ := headEntriesAux_lookup l' (k + 1) e hx
        exact ⟨j + 1, by simp; omega, by omega, rec', by simpa using hrec', hts⟩
    | none =>
      simp only [headEntriesAux, hh]
      intro hx
      obtain ⟨j, hj, hidx, rec', hrec', hts⟩ := headEntriesAux_lookup l' (k + 1) e hx
      exact ⟨j + 1, by simp; omega, by omega, rec', by simpa using hrec', hts⟩

theorem headEntries_decomp (rings : List RecordRing) (i : Nat) (h : i < rings.length) :
    headEntries rings = headEntriesAux 0 (rings.take i) ++
      headEntriesAux i [rings.getD i ⟨[]⟩] ++
      headEntriesAux (i + 1) (rings.drop (i + 1)) := by
  unfold headEntries
  conv_lhs => rw [← List.take_append_drop i rings, List.drop_eq_getElem_cons h]
  rw [headEntriesAux_append]
  rw [show headEntriesAux (0 + (rings.take i).length) (rings[i] :: rings.drop (i + 1)) =
    headEntriesAux i (rings[i] :: rings.drop (i + 1)) from by
      rw [List.length_take, Nat.min_eq_left (by omega)]; simp]
  rw [show rings[i] :: rings.drop (i + 1) = [rings[i]] ++ rings.drop (i + 1) from rfl]
  rw [headEntriesAux_append]
  rw [List.getD_eq_getElem rings _ h]
  simp only [List.length_cons, List.length_nil, List.append_assoc]

theorem headEntries_set_decomp (rings : List RecordRing) (i : Nat) (ring' : RecordRing)
    (h : i < rings.length) :
    headEntries (rings.set i ring') = headEntriesAux 0 (rings.take i) ++
      headEntriesAux i [ring'] ++
      headEntriesAux (i + 1) (rings.drop (i + 1)) := by
  unfold headEntries
  conv_lhs => rw [List.set_eq_take_cons_drop ring' h]
  rw [show rings.take i ++ ring' :: rings.drop (i + 1) =
    rings.take i ++ ([ring'] ++ rings.drop (i + 1)) from rfl]
  rw [headEntriesAux_append, headEntriesAux_append]
  rw [List.length_take, Nat.min_eq_left (by omega)]
  simp only [List.length_cons, List.length_nil, List.append_assoc, Nat.zero_add]

theorem headEntriesAux_singleton_some (i : Nat) (ring : RecordRing) (rec : RingRecord)
    (h : ring.records.head? = some rec) :
    headEntriesAux i [ring] = [⟨recordKey rec, i⟩] := by
  unfold headEntriesAux
  rw [h]
  rfl

theorem headEntriesAux_singleton_none (i : Nat) (ring : RecordRing)
    (h : ring.records.head? = none) :
    headEntriesAux i [ring] = [] := by
  unfold headEntriesAux
  rw [h]
  rfl

theorem popSeq_sorted_aux : ∀ (fuel : Nat) (r : Reader) (b : Nat),
    ReaderInv r → (∀ e ∈ r.heap, b ≤ e.timestamp) →
    List.Sorted (· ≤ ·) (b :: consumedKeys (Reader.popSeq fuel r))
  | 0, r, b, _, _ => by simp [Reader.popSeq, consumedKeys]
  | fuel + 1, r, b, hInv, hlb => by
    obtain ⟨hact, hhInv, hperm, hsort⟩ := hInv
    cases hc : r.consumedNow with
    | none =>
      cases hp : r.pop <;> simp [Reader.popSeq, hc, hp, consumedKeys]
    | some c =>
      obtain ⟨i, rec⟩ := c
      have hc0 := hc
      unfold Reader.consumedNow at hc
      cases hpk : heapPeek r.heap with
      | none => rw [hpk] at hc; simp at hc
      | some e =>
        rw [hpk] at hc
        rw [Option.map_eq_some'] at hc
        obtain ⟨rec0, hh, heq⟩ := hc
        have hi : e.ring_index = i := congrArg Prod.fst heq
        have hrec0 : rec = rec0 := (congrArg Prod.snd heq).symm
        subst hrec0
        rw [hi] at hh
        -- heap head structure
        have hHeap : ∃ hrest, r.heap = e :: hrest := by
          cases hH : r.heap with
          | nil => rw [hH] at hpk; simp [heapPeek] at hpk
          | cons e0 hrest =>
            rw [hH] at hpk
            simp [heapPeek] at hpk
            exact ⟨hrest, by rw [hpk]⟩
        obtain ⟨hrest, hHeap⟩ := hHeap
        have hne : r.heap ≠ [] := by rw [hHeap]; simp
        have hroot : hget r.heap 0 = e := by rw [hHeap]; rfl
        have he_mem : e ∈ r.heap := by rw [hHeap]; simp
        -- e is the head entry of ring i
        obtain ⟨j, hjlen, hidx, rec', hrec', hts⟩ :=
          headEntriesAux_lookup r.rings 0 e (hperm.mem_iff.mp he_mem)
        have hji : i = j := by omega
        subst hji
        rw [hh] at hrec'
        have hrec'2 : rec = rec' := by injection hrec'
        subst hrec'2
        have he_eq : e = ⟨recordKey rec, i⟩ := by
          obtain ⟨ts, ri⟩ := e
          simp only at hts hi
          rw [hts, hi]
        -- records of ring i
        obtain ⟨rest, hrecs⟩ : ∃ rest, (r.rings.getD i ⟨[]⟩).records = rec :: rest := by
          cases hR : (r.rings.getD i ⟨[]⟩).records with
          | nil => rw [hR] at hh; simp at hh
          | cons x xs =>
            rw [hR] at hh
            simp at hh
            exact ⟨xs, by rw [hh]⟩
        -- pop the heap
        obtain ⟨h2, hpop_eq, hInv2, hperm2, hlen2⟩ := heapPop_spec r.heap hhInv hne
        rw [hroot] at hpop_eq hperm2
        -- ring i is key-sorted
        have hmemi : r.rings.getD i ⟨[]⟩ ∈ r.rings := by
          rw [List.getD_eq_getElem r.rings _ hjlen]
          exact List.getElem_mem hjlen
        have hsorti := hsort _ hmemi
        unfold ringKeySorted at hsorti
        rw [hrecs] at hsorti
        -- decomposition of headEntries
        have hdecomp := headEntries_decomp r.rings i hjlen
        rw [headEntriesAux_singleton_some i _ rec hh] at hdecomp
        rw [← he_eq] at hdecomp
        have hperm' : r.heap.Perm (headEntriesAux 0 (r.rings.take i) ++ [e] ++
            headEntriesAux (i + 1) (r.rings.drop (i + 1))) := by
          rw [← hdecomp]
          exact hperm
        have hh2 : h2.Perm (headEntriesAux 0 (r.rings.take i) ++
            headEntriesAux (i + 1) (r.rings.drop (i + 1))) := by
          have h3 : (e :: h2).Perm (e :: (headEntriesAux 0 (r.rings.take i) ++
              headEntriesAux (i + 1) (r.rings.drop (i + 1)))) := by
            refine (hperm2.symm.trans hperm').trans ?_
            rw [List.append_assoc]
            exact List.perm_middle
          exact h3.cons_inv
        -- lower bound facts
        have hlb2 : ∀ x ∈ h2, recordKey rec ≤ x.timestamp := by
          intro x hx
          have hxr : x ∈ r.heap := hperm2.mem_iff.mpr (List.mem_cons_of_mem e hx)
          have := heapInv_le_mem r.heap hhInv x hxr
          rw [hroot, hts] at this
          exact this
        have hble : b ≤ recordKey rec := by
          have := hlb e he_mem
          rw [hts] at this
          exact this
        -- set-ring facts
        have hsort' : ∀ ring ∈ r.rings.set i ⟨rest⟩, ringKeySorted ring := by
          intro ring hring
          rcases List.mem_or_eq_of_mem_set hring with hold | hnew
          · exact hsort ring hold
          · rw [hnew]
            unfold ringKeySorted
            simp only
            exact hsorti.of_cons
        cases hrest2 : rest with
        | nil =>
          subst hrest2
          -- ring i becomes empty: no new heap entry
          have hpop : r.pop = .ok ⟨r.rings.set i ⟨[]⟩, h2,
              r.in_heap.set i false, r.active⟩ := by
            unfold Reader.pop
            rw [if_neg (by simp [hact])]
            simp only [hpop_eq]
            rw [hi]
            have hrpop : (r.rings.getD i ⟨[]⟩).pop = .ok (⟨[]⟩ : RecordRing) := by
              unfold RecordRing.pop
              rw [hrecs]
            simp only [hrpop]
            unfold Reader.maintain_heap_entry
            simp only [getD_set_self _ _ _ _ hjlen]
          have hInv' : ReaderInv ⟨r.rings.set i ⟨[]⟩, h2,
              r.in_heap.set i false, r.active⟩ := by
            refine ⟨hact, hInv2, ?_, hsort'⟩
            show h2.Perm (headEntries (r.rings.set i ⟨[]⟩))
            rw [headEntries_set_decomp r.rings i _ hjlen]
            rw [headEntriesAux_singleton_none i ⟨[]⟩ rfl]
            simpa using hh2
          have hs2 := popSeq_sorted_aux fuel _ (recordKey rec) hInv' (by simpa using hlb2)
          have hgoal : Reader.popSeq (fuel + 1) r =
              (i, rec) :: Reader.popSeq fuel ⟨r.rings.set i ⟨[]⟩, h2,
                r.in_heap.set i false, r.active⟩ := by
            conv_lhs => unfold Reader.popSeq
            rw [hc0, hpop]
          rw [hgoal]
          show List.Sorted (· ≤ ·) (b :: recordKey rec :: _)
          rw [List.sorted_cons]
          refine ⟨?_, hs2⟩
          intro x hx
          rcases List.mem_cons.mp hx with rfl | hx2
          · exact hble
          · exact le_trans hble ((List.sorted_cons.mp hs2).1 x hx2)
        | cons rec2 rest' =>
          subst hrest2
          -- ring i still non-empty: push its next entry
          obtain ⟨hPushInv, hPushPerm, _⟩ := heapPush_spec h2 ⟨recordKey rec2, i⟩ hInv2
          have hpop : r.pop = .ok ⟨r.rings.set i ⟨rec2 :: rest'⟩,
              heapPush h2 ⟨recordKey rec2, i⟩,
              (r.in_heap.set i false).set i true, r.active⟩ := by
            unfold Reader.pop
            rw [if_neg (by simp [hact])]
            simp only [hpop_eq]
            rw [hi]
            have hrpop : (r.rings.getD i ⟨[]⟩).pop =
                .ok (⟨rec2 :: rest'⟩ : RecordRing) := by
              unfold RecordRing.pop
              rw [hrecs]
            simp only [hrpop]
            unfold Reader.maintain_heap_entry
            simp only [getD_set_self _ _ _ _ hjlen]
          have hInv' : ReaderInv ⟨r.rings.set i ⟨rec2 :: rest'⟩,
              heapPush h2 ⟨recordKey rec2, i⟩,
              (r.in_heap.set i false).set i true, r.active⟩ := by
            refine ⟨hact, hPushInv, ?_, hsort'⟩
            show (heapPush h2 ⟨recordKey rec2, i⟩).Perm
              (headEntries (r.rings.set i ⟨rec2 :: rest'⟩))
            rw [headEntries_set_decomp r.rings i _ hjlen]
            rw [headEntriesAux_singleton_some i ⟨rec2 :: rest'⟩ rec2 rfl]
            refine hPushPerm.trans ?_
            refine ((hh2.append_right [⟨recordKey rec2, i⟩]).trans ?_)
            rw [List.append_assoc, List.append_assoc]
            refine List.Perm.append_left _ ?_
            exact List.perm_append_singleton _ _
          have hkey12 : recordKey rec ≤ recordKey rec2 := by
            have := (List.sorted_cons.mp hsorti).1 (recordKey rec2)
            exact this (by simp)
          have hlb' : ∀ x ∈ heapPush h2 ⟨recordKey rec2, i⟩,
              recordKey rec ≤ x.timestamp := by
            intro x hx
            have hx2 : x ∈ h2 ++ [⟨recordKey rec2, i⟩] := hPushPerm.mem_iff.mp hx
            rcases List.mem_append.mp hx2 with hxa | hxb
            · exact hlb2 x hxa
            · simp at hxb
              rw [hxb]
              exact hkey12
          have hs2 := popSeq_sorted_aux fuel _ (recordKey rec) hInv' hlb'
          have hgoal : Reader.popSeq (fuel + 1) r =
              (i, rec) :: Reader.popSeq fuel ⟨r.rings.set i ⟨rec2 :: rest'⟩,
                heapPush h2 ⟨recordKey rec2, i⟩,
                (r.in_heap.set i false).set i true, r.active⟩ := by
            conv_lhs => unfold Reader.popSeq
            rw [hc0, hpop]
          rw [hgoal]
          show List.Sorted (· ≤ ·) (b :: recordKey rec :: _)
          rw [List.sorted_cons]
          refine ⟨?_, hs2⟩
          intro x hx
          rcases List.mem_cons.mp hx with rfl | hx2
          · exact hble
          · exact le_trans hble ((List.sorted_cons.mp hs2).1 x hx2)

theorem getD_replicate_false : ∀ (n j : Nat), (List.replicate n false).getD j false = false
  | 0, _ => by simp
  | n + 1, 0 => rfl
  | n + 1, j + 1 => by
    simp only [List.replicate, List.getD_cons_succ]
    exact getD_replicate_false n j

theorem start_fold (rings : List RecordRing) :
    ∀ m, m ≤ rings.length →
    ∃ H F, (List.range m).foldl
        (fun (acc : Reader) (i : Nat) => if acc.in_heap.getD i false then acc
          else acc.maintain_heap_entry i)
        (⟨rings, [], List.replicate rings.length false, false⟩ : Reader) =
        (⟨rings, H, F, false⟩ : Reader) ∧
      heapInv H ∧ H.Perm (headEntriesAux 0 (rings.take m)) ∧
      (∀ j, m ≤ j → F.getD j false = false)
  | 0, _ => by
    refine ⟨[], List.replicate rings.length false, by simp, ?_, by simp [headEntriesAux], ?_⟩
    · intro j hj0 hjlen
      simp at hjlen
    · intro j _
      exact getD_replicate_false _ j
  | m + 1, hm => by
    obtain ⟨H, F, hfold, hInv, hperm, hF⟩ := start_fold rings m (by omega)
    rw [List.range_succ, List.foldl_append, hfold]
    simp only [List.foldl_cons, List.foldl_nil]
    rw [show (⟨rings, H, F, false⟩ : Reader).in_heap.getD m false = false from hF m (le_refl m)]
    simp only [Bool.false_eq_true, if_false]
    unfold Reader.maintain_heap_entry
    simp only
    have htk : rings.take (m + 1) = rings.take m ++ [rings[m]] := by
      rw [List.take_succ]
      congr 1
      rw [List.getElem?_eq_getElem (by omega)]
      rfl
    cases hh : (rings.getD m ⟨[]⟩).records with
    | nil =>
      refine ⟨H, F, rfl, hInv, ?_, fun j hj => hF j (by omega)⟩
      rw [htk, headEntriesAux_append]
      rw [List.length_take, Nat.min_eq_left (by omega)]
      rw [headEntriesAux_singleton_none (0 + m) rings[m]
        (by rw [← List.getD_eq_getElem rings ⟨[]⟩ (by omega), hh]; rfl)]
      simpa using hperm
    | cons rec rest =>
      obtain ⟨hPushInv, hPushPerm, _⟩ := heapPush_spec H ⟨recordKey rec, m⟩ hInv
      refine ⟨heapPush H ⟨recordKey rec, m⟩, F.set m true, rfl, hPushInv, ?_, ?_⟩
      · rw [htk, headEntriesAux_append]
        rw [List.length_take, Nat.min_eq_left (by omega)]
        rw [headEntriesAux_singleton_some (0 + m) rings[m] rec
          (by rw [← List.getD_eq_getElem rings ⟨[]⟩ (by omega), hh]; rfl)]
        refine hPushPerm.trans ?_
        rw [show (0 : Nat) + m = m from by omega]
        exact (List.Perm.append_right _ hperm)
      · intro j hj
        rw [getD_set_ne _ _ _ _ _ (by omega)]
        exact hF j (by omega)

theorem start_inv (rings : List RecordRing) (hne : rings ≠ []) :
    ∃ H F, Reader.start ⟨rings, [], List.replicate rings.length false, false⟩ =
        .ok ⟨rings, H, F, true⟩ ∧ heapInv H ∧ H.Perm (headEntries rings) := by
  obtain ⟨H, F, hfold, hInv, hperm, hF⟩ := start_fold rings rings.length (le_refl _)
  refine ⟨H, F, ?_, hInv, by rw [List.take_length] at hperm; exact hperm⟩
  unfold Reader.start
  rw [if_neg (by simp [List.length_eq_zero]; exact hne)]
  rw [if_neg (by simp)]
  dsimp only
  rw [hfold]

/-- **C2** (corrected): the pop order is governed by the records' heap keys
(the u64 at content offset 8 for a `PERF_RECORD_SAMPLE` with at least 8
content bytes, 0 for every other record), and the heap only sees each ring's
current head.  Whenever every ring's records carry non-decreasing heap keys —
which covers the claim's scenario of ascending distinct sample timestamps
with lost records at the front of a batch — repeated `Reader::pop` after
`Reader::start` consumes records in non-decreasing key order, for any number
of pops.  The claim's stronger clause that a lost record is dequeued before
all same-batch samples of *its own ring* is false (see the counterexample):
a lost record sitting behind a sample in the same ring only enters the heap
after that sample is consumed. -/
theorem claim_C2_reader_merge_order (rings : List RecordRing) (fuel : Nat)
    (hne : rings ≠ [])
    (hsorted : ∀ ring ∈ rings, ringKeySorted ring) :
    ∃ r1, Reader.start ⟨rings, [], List.replicate rings.length false, false⟩ =
        .ok r1 ∧
      List.Sorted (· ≤ ·) (consumedKeys (Reader.popSeq fuel r1)) := by
  obtain ⟨H, F, hstart, hInv, hperm⟩ := start_inv rings hne
  refine ⟨_, hstart, ?_⟩
  have hRI : ReaderInv ⟨rings, H, F, true⟩ := ⟨rfl, hInv, hperm, hsorted⟩
  have hs := popSeq_sorted_aux fuel ⟨rings, H, F, true⟩ 0 hRI (fun e _ => Nat.zero_le _)
  exact (List.sorted_cons.mp hs).2

/-- Witness for C2: a single ring holding one lost record. -/
theorem claim_C2_witness :
    ∃ r1, Reader.start ⟨[⟨[⟨PERF_RECORD_LOST, []⟩]⟩], [],
        List.replicate (List.length [(⟨[⟨PERF_RECORD_LOST, []⟩]⟩ : RecordRing)]) false,
        false⟩ = .ok r1 ∧
      List.Sorted (· ≤ ·) (consumedKeys (Reader.popSeq 1 r1)) :=
  claim_C2_reader_merge_order [⟨[⟨PERF_RECORD_LOST, []⟩]⟩] 1 (by decide)
    (by
      intro ring h
      simp at h
      subst h
      unfold ringKeySorted
      decide)

/-- Counterexample to the original C2: one ring with a 100-timestamp sample
followed by a lost record (same batch).  The lost record (heap key 0) is
consumed *after* the sample, so the claimed dequeue order and ascending
timestamp order both fail. -/
theorem claim_C2_counterexample :
    ∃ r1, Reader.start ⟨[⟨[⟨PERF_RECORD_SAMPLE,
        leBytes 4 24 ++ leBytes 4 3 ++ leBytes 8 100⟩, ⟨PERF_RECORD_LOST, []⟩]⟩], [],
        [false], false⟩ = .ok r1 ∧
      consumedKeys (Reader.popSeq 2 r1) = [100, 0] ∧
      ¬ List.Sorted (· ≤ ·) (consumedKeys (Reader.popSeq 2 r1)) :=
  ⟨_, rfl, by decide, by decide⟩
